import Mathlib

/-!
cli-calc: tokenizer, infix converter and stack evaluator

Shallow embedding of `src/cli_calc.cpp` (class `Calculator`).

* A `std::string` is the list of its characters, a `std::vector` a list. The program
  reads bytes: the model is exact on ASCII sources (a character outside ASCII is one
  `T_UNKNOWN` token here, one per byte in the program).
* `Stack<T>` keeps its elements in a vector, bottom first, with `pos` the index of
  the top. The model keeps the elements in a list, top first, so `size` is the
  length of the list. `pop` erases at `s_vector.end()`, which is undefined
  behaviour; `Stack.pop` says what the GNU C++ library makes of it for the two
  element types of the program: a `Token` is removed, a `double` is not and the
  process aborts.
* The `assert`s are enabled, as the source is written. A failed `assert`, an
  exception nobody catches and the abort that follows a pop of `Stack<double>` all
  end the process before the call returns; the model returns `none` for each and
  does not keep what was printed before.
* The double-precision primitives (`std::stod`, the conversion from `int`, negation,
  `+ - * /`, `std::pow`, printing) belong to the C++ runtime and are parameters of
  the model, bundled in `DoubleOps`; the theorems hold for every choice of them.
  `std::stoi` is integer parsing and is modelled in full.
* Concrete examples run in `exactOps`, the integers that binary64 holds exactly.
-/

namespace CliCalc

/-! ## Tokens -/

/-- Token categories (`enum TokenType`). -/
inductive TokenType where
  | T_NUM
  | T_OP
  | T_LPAR
  | T_RPAR
  | T_UNKNOWN
deriving DecidableEq, Repr

/-- Token (`struct Token`): its text and its category. -/
structure Token where
  value : List Char
  type : TokenType
deriving DecidableEq, Repr

/-- Precedence table: `PRECENDENCE.at(key)`, `none` when the key is absent
(`at` throws `std::out_of_range`). -/
def PRECENDENCE (key : List Char) : Option Nat :=
  if key = ['+'] then some 1
  else if key = ['-'] then some 1
  else if key = ['*'] then some 2
  else if key = ['/'] then some 2
  else if key = ['^'] then some 3
  else none

/-! ## Stack -/

/-- Generic stack (`Stack<T>`): the elements, top first. -/
abbrev Stack (T : Type) := List T

/-- Push (`Stack::push`). -/
def Stack.push {T : Type} (s : Stack T) (n : T) : Stack T := n :: s

/-- Pop (`Stack::pop`): the top and the remaining stack, `none` when the function
that owns the stack does not return after this call. On an empty stack `assert(pos >= 0)` fails. On any other stack
the statement `s_vector.erase(s_vector.end())` has undefined behaviour, and what the
GNU C++ library does depends on the element type: `erase` first moves the range from
`end() + 1` to `end()`, of -1 elements, one place down and then destroys the last
element. For an element with a copy of its own, as `Token` (`trivial = false`), the
move is a loop that runs no iteration, and the last element is removed. For a
trivially copyable element, as `double` (`trivial = true`), the move is a `memmove`
whose size is -8 read as an unsigned number: memory around the vector is
overwritten, later pops do not see the values pushed, and the process aborts before
the function that owns the stack returns. -/
def Stack.pop {T : Type} (trivial : Bool) : Stack T → Option (T × Stack T)
  | [] => none
  | tmp :: rest => if trivial then none else some (tmp, rest)

/-- Peek (`Stack::peek`): the top; `none` when `assert(pos >= 0)` fails. -/
def Stack.peek {T : Type} : Stack T → Option T
  | [] => none
  | top :: _ => some top

/-- Size (`Stack::size`), `pos + 1`. -/
def Stack.size {T : Type} (s : Stack T) : Nat := s.length

/-! ## Tokenizer -/

/-- Characters skipped by the first group of `case` labels of `tokenize`. -/
def isBlank (c : Char) : Bool :=
  c == ' ' || c == '\x0c' || c == '\n' || c == '\r' || c == '\t' || c == '\x0b'

/-- Characters of the second group of `case` labels: the operators. -/
def isOpChar (c : Char) : Bool :=
  c == '+' || c == '-' || c == '*' || c == '/' || c == '^'

/-- Opening brackets. -/
def isLParChar (c : Char) : Bool := c == '(' || c == '['

/-- Closing brackets. -/
def isRParChar (c : Char) : Bool := c == ')' || c == ']'

/-- Condition of the `default` branch and of its inner `while`: a decimal digit,
an ASCII letter or the point. -/
def isNumChar (c : Char) : Bool :=
  (decide ('0' ≤ c) && decide (c ≤ '9')) || (decide ('a' ≤ c) && decide (c ≤ 'z'))
    || (decide ('A' ≤ c) && decide (c ≤ 'Z')) || c == '.'

/-- The `for` loop of `tokenize` on the characters from index `i` on; the first
argument bounds the number of iterations left (`s_size - i`). When a number starts
with the point, the text is seeded with `0.` and the point is skipped before the
inner `while` collects the run of number characters. -/
def tokenizeFrom : Nat → List Char → List Token
  | 0, _ => []
  | _ + 1, [] => []
  | n + 1, c :: rest =>
    if isBlank c then tokenizeFrom n rest
    else if isOpChar c then ⟨[c], .T_OP⟩ :: tokenizeFrom n rest
    else if isLParChar c then ⟨[c], .T_LPAR⟩ :: tokenizeFrom n rest
    else if isRParChar c then ⟨[c], .T_RPAR⟩ :: tokenizeFrom n rest
    else if isNumChar c then
      let seed := if c = '.' then ['0', '.'] else []
      let body := if c = '.' then rest else c :: rest
      ⟨seed ++ body.takeWhile isNumChar, .T_NUM⟩ :: tokenizeFrom n (body.dropWhile isNumChar)
    else ⟨[c], .T_UNKNOWN⟩ :: tokenizeFrom n rest

/-- Tokenizer (`Calculator::tokenize`). -/
def tokenize (source : List Char) : List Token :=
  tokenizeFrom source.length source

/-! ## Infix converter -/

/-- The `while` of the `T_OP` case of `toPrefix`: as long as the stack is not empty,
its top is not a `T_LPAR` and the token's precedence is below the top's, the top
moves to the output. Either table lookup may throw. (The `if` around the loop in
the source tests the same condition.) -/
def popHigher (token : Token) : Stack Token → List Token → Option (Stack Token × List Token)
  | [], out => some ([], out)
  | top :: stack, out =>
    if top.type = .T_LPAR then some (top :: stack, out)
    else
      match PRECENDENCE token.value, PRECENDENCE top.value with
      | some p, some q =>
        if p < q then popHigher token stack (out ++ [top]) else some (top :: stack, out)
      | _, _ => none

/-- The `T_RPAR` case of `toPrefix`: tokens move from the stack to the output until
the top is a `T_LPAR`, which is popped and dropped; `peek` on an empty stack fails. -/
def popToLPar : Stack Token → List Token → Option (Stack Token × List Token)
  | [], _ => none
  | top :: stack, out =>
    if top.type = .T_LPAR then some (stack, out) else popToLPar stack (out ++ [top])

/-- One iteration of the `for` loop of `toPrefix` on the pair (stack, output). The
`switch` has no case for `T_UNKNOWN`: such a token changes nothing. -/
def toPrefixStep (st : Stack Token × List Token) (token : Token) :
    Option (Stack Token × List Token) :=
  match token.type with
  | .T_NUM => some (st.1, st.2 ++ [token])
  | .T_OP => (popHigher token st.1 st.2).map fun r => (Stack.push r.1 token, r.2)
  | .T_LPAR => some (Stack.push st.1 token, st.2)
  | .T_RPAR => popToLPar st.1 st.2
  | .T_UNKNOWN => some st

/-- The `for` loop of `toPrefix`. -/
def toPrefixLoop : List Token → Stack Token × List Token → Option (Stack Token × List Token)
  | [], st => some st
  | token :: rest, st => (toPrefixStep st token).bind (toPrefixLoop rest)

/-- Converter (`Calculator::toPrefix`): after the loop, what is left on the stack is
popped to the output, top first. -/
def toPrefix (token_vector : List Token) : Option (List Token) :=
  (toPrefixLoop token_vector ([], [])).map fun r => r.2 ++ r.1

/-! ## Numerals -/

/-- Value of a character as a digit (`0-9`, then letters of either case for 10 to 35). -/
def digitVal (c : Char) : Option Nat :=
  if '0' ≤ c ∧ c ≤ '9' then some (c.toNat - 48)
  else if 'a' ≤ c ∧ c ≤ 'z' then some (c.toNat - 87)
  else if 'A' ≤ c ∧ c ≤ 'Z' then some (c.toNat - 55)
  else none

/-- A character is a digit of base `b`. -/
def isDigitOf (b : Nat) (c : Char) : Bool :=
  match digitVal c with
  | some d => decide (d < b)
  | none => false

/-- Positional value in base `b` of a run of digits. -/
def digitsValue (b : Nat) (ds : List Char) : Nat :=
  ds.foldl (fun acc c => acc * b + (digitVal c).getD 0) 0

/-- Whitespace of the C locale (`isspace`). -/
def isspace (c : Char) : Bool :=
  c == ' ' || c == '\t' || c == '\n' || c == '\x0b' || c == '\x0c' || c == '\r'

/-- The text starts with `0x` or `0X` followed by a hexadecimal digit. -/
def hasHexPrefix : List Char → Bool
  | '0' :: x :: d :: _ => (x == 'x' || x == 'X') && isDigitOf 16 d
  | _ => false

/-- Library call `std::stoi(text, nullptr, base)`, following `strtol`: leading
whitespace and one sign are skipped, with base 16 (or 0) a `0x` in front of a
hexadecimal digit is skipped, base 0 picks 8 or 10 from the first character, and
the longest run of digits of the base is read. `none` when it throws: no digit
could be read (`std::invalid_argument`) or the value is outside the range of `int`
(`std::out_of_range`). A base that `strtol` does not accept (negative, 1, above 36)
makes `strtol` return 0 at once, and `std::stoi` returns that 0. -/
def stoi (text : List Char) (base : Int) : Option Int :=
  if base < 0 ∨ base = 1 ∨ 36 < base then some 0
  else
    let s := text.dropWhile isspace
    let negative := s.head? = some '-'
    let s := if s.head? = some '-' ∨ s.head? = some '+' then s.tail else s
    let hex := decide (base = 0 ∨ base = 16) && hasHexPrefix s
    let b : Nat := if hex then 16
      else if base = 0 then (if s.head? = some '0' then 8 else 10)
      else base.toNat
    let s := if hex then s.drop 2 else s
    let digits := s.takeWhile (isDigitOf b)
    if digits = [] then none
    else
      let v : Int := digitsValue b digits
      let r := if negative then -v else v
      if r < -2147483648 ∨ 2147483647 < r then none else some r

/-! ## Evaluator -/

/-- The double-precision primitives the evaluator calls. -/
structure DoubleOps (α : Type) where
  /-- Library call `std::stod(text, nullptr)`; `none` when it throws. -/
  stod : List Char → Option α
  /-- Conversion `(double) n` of an `int`. -/
  ofInt : Int → α
  /-- Unary minus. -/
  neg : α → α
  /-- Sum `a + b`. -/
  add : α → α → α
  /-- Difference `a - b`. -/
  sub : α → α → α
  /-- Product `a * b`. -/
  mul : α → α → α
  /-- Quotient `a / b`. -/
  div : α → α → α
  /-- Power `std::pow(a, b)`. -/
  pow : α → α → α
  /-- Text that `std::cout` prints for a value. -/
  fmt : α → List Char

/-- Calculator (`class Calculator`): its two fields. -/
structure Calculator where
  base : Int
  verbose : Bool
deriving DecidableEq, Repr

/-- Constructor (`Calculator::Calculator`); `none` when its `assert` fails. -/
def Calculator.new (num_base : Int) (is_verbose : Bool) : Option Calculator :=
  if 1 < num_base ∧ num_base < 37 then some ⟨num_base, is_verbose⟩ else none

/-- Getter (`Calculator::getBase`). -/
def Calculator.getBase (self : Calculator) : Int := self.base

/-- Setter (`Calculator::setBase`). -/
def Calculator.setBase (self : Calculator) (num_base : Int) : Calculator :=
  { self with base := num_base }

/-- State of the loop of `calculatePrefix`: the numeric stack, the trace counter and
the text written to `std::cout` so far, one entry per line. -/
structure EvalState (α : Type) where
  stack : Stack α
  op_num : Nat
  out : List (List Char)

/-- Value pushed for a `T_NUM` token: `std::stod` at base 10, else `std::stoi` in the
base, converted to `double`. -/
def parseNumber {α : Type} (A : DoubleOps α) (base : Int) (text : List Char) : Option α :=
  if base = 10 then A.stod text else (stoi text base).map A.ofInt

/-- The inner `switch` on `token.value[0]`: the result pushed, `none` when no case
matches. -/
def binop {α : Type} (A : DoubleOps α) (c : Char) (a b : α) : Option α :=
  if c = '+' then some (A.add a b)
  else if c = '-' then some (A.sub a b)
  else if c = '*' then some (A.mul a b)
  else if c = '/' then some (A.div a b)
  else if c = '^' then some (A.pow a b)
  else none

/-- Trace line of a binary operation, without its final line feed. -/
def traceLine {α : Type} (A : DoubleOps α) (op_num : Nat) (a : α) (value : List Char) (b r : α) :
    List Char :=
  (Nat.repr op_num).toList ++ [')', ' '] ++ A.fmt a ++ [' '] ++ value ++ [' '] ++ A.fmt b
    ++ [' ', '=', ' '] ++ A.fmt r ++ [';']

/-- One iteration of the loop of `calculatePrefix`. `T_NUM` pushes the parsed value.
`T_OP` asserts a non-empty stack; with one value and the text `-` it pops that value
and pushes its negation; otherwise it pops `b` then `a`, pushes `a OP b` for the five
operator characters (printing the trace line when verbose) and increments `op_num`.
The `switch` has no case for the other categories. The stack is a `Stack<double>`:
its pops are those of a trivially copyable element. -/
def evalStep {α : Type} (self : Calculator) (A : DoubleOps α) (st : EvalState α)
    (token : Token) : Option (EvalState α) :=
  match token.type with
  | .T_NUM =>
    (parseNumber A self.base token.value).map fun v => { st with stack := Stack.push st.stack v }
  | .T_OP =>
    if Stack.size st.stack = 0 then none
    else if Stack.size st.stack = 1 ∧ token.value = ['-'] then
      (Stack.pop true st.stack).map fun r => { st with stack := Stack.push r.2 (A.neg r.1) }
    else
      (Stack.pop true st.stack).bind fun rb =>
      (Stack.pop true rb.2).map fun ra =>
        match binop A (token.value.headD '\x00') ra.1 rb.1 with
        | some r =>
          { stack := Stack.push ra.2 r
            op_num := st.op_num + 1
            out := if self.verbose then
                st.out ++ [traceLine A st.op_num ra.1 token.value rb.1 r]
              else st.out }
        | none => { stack := ra.2, op_num := st.op_num + 1, out := st.out }
  | _ => some st

/-- The `for` loop of `calculatePrefix`. -/
def evalLoop {α : Type} (self : Calculator) (A : DoubleOps α) :
    List Token → EvalState α → Option (EvalState α)
  | [], st => some st
  | token :: rest, st => (evalStep self A st token).bind (evalLoop self A rest)

/-- State of `calculatePrefix` before its first token. -/
def EvalState.init (α : Type) : EvalState α := ⟨[], 1, []⟩

/-- Evaluator (`Calculator::calculatePrefix`): the loop, then `return stack.pop()` on
the `Stack<double>`. -/
def calculatePrefix {α : Type} (self : Calculator) (A : DoubleOps α)
    (prefix_vector : List Token) : Option α :=
  (evalLoop self A prefix_vector (EvalState.init α)).bind fun st =>
    (Stack.pop true st.stack).map fun r => r.1

/-- Pipeline (`Calculator::calculate`). -/
def Calculator.calculate {α : Type} (self : Calculator) (A : DoubleOps α)
    (source : List Char) : Option α :=
  (toPrefix (tokenize source)).bind (calculatePrefix self A)

/-! ## Exact arithmetic for examples -/

/-- Result of an exact integer computation when binary64 holds it exactly: every
integer of magnitude at most 2^53 is a double, so a correctly rounded operation
with such a result returns it unchanged. `none` stands for a value that is not
tracked. -/
def exactInt (v : Int) : Option Int :=
  if -9007199254740992 ≤ v ∧ v ≤ 9007199254740992 then some v else none

/-- The number 2^1024 - 2^970, halfway between the largest finite double and 2^1024:
a decimal literal rounds to a finite double exactly when it is below it. -/
def stodLimit : Nat :=
  179769313486231580793728971405303415079934132710037826936173778980444968292764750946649017977587207096330286416692887910946555547851940402630657488671505820681908902000708383676273854845817711531764475730270069855571366959622842914819860834936475292719074168444365510704342711559699508093042880177904174497792

/-- The number 2^1022. -/
def pow2_1022 : Nat :=
  44942328371557897693232629769725618340449424473557664318357520289433168951375240783177119330601884005280028469967848339414697442203604155623211857659868531094441973356216371319075554900311523529863270738021251442209537670585615720368478277635206809290837627671146574559986811484619929076208839082406056034304

/-- The number 2^1074. -/
def pow2_1074 : Nat :=
  202402253307310618352495346718917307049556649764142118356901358027430339567995346891960383701437124495187077864316811911389808737385793476867013399940738509921517424276566361364466907742093216341239767678472745068562007483424692698618103355649159556340810056512358769552333414615230502532186327508646006263307707741093494784

/-- Lower-case form of an ASCII letter. -/
def toLowerAscii (c : Char) : Char :=
  if 'A' ≤ c ∧ c ≤ 'Z' then Char.ofNat (c.toNat + 32) else c

/-- The text starts with the word, capital letters read as small ones. -/
def startsWithWord (word text : List Char) : Bool :=
  (text.take word.length).map toLowerAscii == word

/-- Exponent of a floating-point numeral: one sign and decimal digits; `none` when
there is no digit. -/
def readExponent (s : List Char) : Option Int :=
  let negative := s.head? = some '-'
  let s := if s.head? = some '-' ∨ s.head? = some '+' then s.tail else s
  let ds := s.takeWhile (isDigitOf 10)
  if ds = [] then none
  else some (if negative then -(digitsValue 10 ds : Int) else (digitsValue 10 ds : Int))

/-- Digits of a floating-point numeral in base `b`, with at most one point: their
value as one number, the count of digits after the point and the text that follows;
`none` when there is no digit. -/
def readMantissa (b : Nat) (s : List Char) : Option (Nat × Nat × List Char) :=
  let ip := s.takeWhile (isDigitOf b)
  let r := s.dropWhile (isDigitOf b)
  let fp := if r.head? = some '.' then r.tail.takeWhile (isDigitOf b) else []
  let r2 := if r.head? = some '.' then r.tail.dropWhile (isDigitOf b) else r
  if ip = [] ∧ fp = [] then none else some (digitsValue b (ip ++ fp), fp.length, r2)

/-- What `strtod` reads at the start of a text. -/
inductive Numeral where
  | invalid
  | special
  | finite (negative : Bool) (m : Nat) (e2 e10 : Int)
deriving DecidableEq, Repr

/-- Numeral at the start of a text as `strtod` reads it: whitespace and one sign are
skipped; `inf` and `nan` are `special`; after `0x` a hexadecimal mantissa with an
optional binary exponent `p`; otherwise a decimal mantissa with an optional decimal
exponent `e`; `finite negative m e2 e10` stands for `m * 2^e2 * 10^e10` with its
sign, `invalid` for a text with none of these. -/
def strtodRead (text : List Char) : Numeral :=
  let s := text.dropWhile isspace
  let negative : Bool := s.head? = some '-'
  let s := if s.head? = some '-' ∨ s.head? = some '+' then s.tail else s
  if startsWithWord ['i', 'n', 'f'] s || startsWithWord ['n', 'a', 'n'] s then .special
  else
    let hex : Option (Nat × Nat × List Char) :=
      match s with
      | '0' :: x :: r => if x = 'x' ∨ x = 'X' then readMantissa 16 r else none
      | _ => none
    match hex with
    | some (m, fd, r) =>
      let e : Int :=
        match r with
        | q :: r2 => if q = 'p' ∨ q = 'P' then (readExponent r2).getD 0 else 0
        | [] => 0
      .finite negative m (e - 4 * (fd : Int)) 0
    | none =>
      match readMantissa 10 s with
      | some (m, fd, r) =>
        let e : Int :=
          match r with
          | q :: r2 => if q = 'e' ∨ q = 'E' then (readExponent r2).getD 0 else 0
          | [] => 0
        .finite negative m 0 (e - (fd : Int))
      | none => .invalid

/-- Text that `std::cout` prints for a double that is the integer `n`: its decimal
digits below 10^6 in magnitude, and from there on six significant digits (rounded
to nearest, ties to even), trailing zeros dropped, and an exponent of two digits or
more. -/
def fmtInt (n : Int) : List Char :=
  let digits := (Nat.repr n.natAbs).toList
  let sign := if n < 0 then ['-'] else []
  if digits.length ≤ 6 then sign ++ digits
  else
    let m := digitsValue 10 (digits.take 6)
    let r := digitsValue 10 (digits.drop 6)
    let half := 5 * 10 ^ (digits.length - 7)
    let up : Bool := decide (half < r) || (decide (r = half) && decide (m % 2 = 1))
    let m := if up then m + 1 else m
    let e := if m = 1000000 then digits.length else digits.length - 1
    let m := if m = 1000000 then 100000 else m
    let ds := (Nat.repr m).toList
    let frac := (ds.drop 1).reverse.dropWhile (fun c => c == '0') |>.reverse
    let es := (Nat.repr e).toList
    sign ++ ds.take 1 ++ (if frac = [] then [] else '.' :: frac) ++ ['e', '+']
      ++ (if es.length < 2 then '0' :: es else es)

/-- Exact integer fragment of double-precision arithmetic, used to run examples.
A value is `some n` when the double is exactly the integer `n` (zero being +0), and
`none` when it is not tracked (a fraction, a rounded result, -0, an infinity, a
NaN). `stod` follows `strtod`: it throws when no numeral starts the text, when the
numeral rounds to infinity, and when it is below 2^-1022 without being a multiple
of 2^-1074. -/
def exactOps : DoubleOps (Option Int) where
  stod text :=
    match strtodRead text with
    | .invalid => none
    | .special => some none
    | .finite negative m e2 e10 =>
      let num := m * 2 ^ e2.toNat * 10 ^ e10.toNat
      let den := 2 ^ (-e2).toNat * 10 ^ (-e10).toNat
      if m = 0 then some (if negative then none else some 0)
      else if stodLimit * den ≤ num then none
      else if num * pow2_1022 < den ∧ ¬ den ∣ num * pow2_1074 then none
      else if den ∣ num then
        some (exactInt (if negative then -((num / den : Nat) : Int) else ((num / den : Nat) : Int)))
      else some none
  ofInt n := exactInt n
  neg a := a.bind fun x => if x = 0 then none else some (-x)
  add a b := a.bind fun x => b.bind fun y => exactInt (x + y)
  sub a b := a.bind fun x => b.bind fun y => exactInt (x - y)
  mul a b := a.bind fun x => b.bind fun y =>
    if x * y = 0 ∧ (x < 0 ∨ y < 0) then none else exactInt (x * y)
  div a b := a.bind fun x => b.bind fun y =>
    if y ≠ 0 ∧ y ∣ x ∧ ¬ (x = 0 ∧ y < 0) then exactInt (x / y) else none
  pow a b := a.bind fun x => b.bind fun y =>
    if 0 ≤ y then exactInt (x ^ y.toNat) else none
  fmt a := match a with
    | some n => fmtInt n
    | none => ['?']

/-! ## Auxiliary notions used in the statements -/

/-- Tokens that `tokenize` emits for one character that is not a number character. -/
def charToken (c : Char) : List Token :=
  if isBlank c then []
  else if isOpChar c then [⟨[c], .T_OP⟩]
  else if isLParChar c then [⟨[c], .T_LPAR⟩]
  else if isRParChar c then [⟨[c], .T_RPAR⟩]
  else [⟨[c], .T_UNKNOWN⟩]

/-- Text of the `T_NUM` token made from a run of number characters: the run itself,
with `0` in front when it starts with the point. -/
def numText (a : List Char) : List Char :=
  if a.head? = some '.' then '0' :: a else a

/-- A number literal: a non-empty run of number characters. -/
def IsLit (a : List Char) : Prop := a ≠ [] ∧ ∀ c ∈ a, isNumChar c = true

instance (a : List Char) : Decidable (IsLit a) := by
  unfold IsLit; infer_instance

/-- The same as `closesUnopened`, on tokens: a `T_RPAR` token is met while no
`T_LPAR` is open. -/
def closesUnopenedTok : Nat → List Token → Bool
  | _, [] => false
  | d, t :: rest =>
    if t.type = .T_LPAR then closesUnopenedTok (d + 1) rest
    else if t.type = .T_RPAR then
      match d with
      | 0 => true
      | d + 1 => closesUnopenedTok d rest
    else closesUnopenedTok d rest

/-- A character of the last branch of `tokenize`: not blank, no operator, no
bracket, no number character. -/
def isUnknownChar (c : Char) : Bool :=
  !isBlank c && !isOpChar c && !isLParChar c && !isRParChar c && !isNumChar c

/-- Replace a character of the last branch of `tokenize` by a space. -/
def blankUnknown (c : Char) : Char :=
  if isUnknownChar c then ' ' else c

/-- Write a square bracket as the round one. -/
def roundBrackets (c : Char) : Char :=
  if c = '[' then '(' else if c = ']' then ')' else c

/-- The token of a source after `roundBrackets`: the text of a bracket token changes,
the other tokens stay. -/
def roundToken (t : Token) : Token :=
  if t.type = .T_LPAR ∨ t.type = .T_RPAR then ⟨t.value.map roundBrackets, t.type⟩ else t

/-- The same change on `T_LPAR` tokens only, the bracket tokens that reach the stack
and the output of the converter. -/
def roundLPar (t : Token) : Token :=
  if t.type = .T_LPAR then ⟨t.value.map roundBrackets, t.type⟩ else t

/-- Number of `T_LPAR` tokens in a stack. -/
def lparCount : List Token → Nat
  | [] => 0
  | t :: rest => (if t.type = .T_LPAR then 1 else 0) + lparCount rest

/-- A call on a calculator that leaves it alive: `setBase(n)`, or a `calculate`
that returns. -/
inductive Call where
  | setBase (num_base : Int)
  | calculate (source : List Char)

/-- Calculator after a call: `setBase` stores its argument, `calculate` changes no
field. -/
def Calculator.after (self : Calculator) : Call → Calculator
  | .setBase n => self.setBase n
  | .calculate _ => self

/-- Calculator after a sequence of calls. -/
def Calculator.afterAll (self : Calculator) (calls : List Call) : Calculator :=
  calls.foldl Calculator.after self

/-- Texts of a token sequence, one after the other. -/
def tokenText : List Token → List Char
  | [] => []
  | t :: rest => t.value ++ tokenText rest

/-- Number of `T_RPAR` tokens in a sequence. -/
def rparCount : List Token → Nat
  | [] => 0
  | t :: rest => (if t.type = .T_RPAR then 1 else 0) + rparCount rest

/-- The five operators. -/
inductive OpSym where
  | add
  | sub
  | mul
  | div
  | pow
deriving DecidableEq, Repr

/-- Character of an operator. -/
def OpSym.char : OpSym → Char
  | .add => '+'
  | .sub => '-'
  | .mul => '*'
  | .div => '/'
  | .pow => '^'

/-- Binary expression tree: number texts at the leaves, operators at the inner nodes. -/
inductive Tree where
  | leaf (text : List Char)
  | node (op : OpSym) (left right : Tree)

/-- Fully parenthesized token sequence of a tree: a leaf is its `T_NUM` token, an
inner node is `(`, the left subtree, the operator, the right subtree, `)`. -/
def Tree.inorder : Tree → List Token
  | .leaf text => [⟨text, .T_NUM⟩]
  | .node op l r =>
    ⟨['('], .T_LPAR⟩ :: (l.inorder ++ ⟨[op.char], .T_OP⟩ :: (r.inorder ++ [⟨[')'], .T_RPAR⟩]))

/-- Left, right, operator traversal of a tree. -/
def Tree.postorder : Tree → List Token
  | .leaf text => [⟨text, .T_NUM⟩]
  | .node op l r => l.postorder ++ (r.postorder ++ [⟨[op.char], .T_OP⟩])

/-! ## Character classes -/

theorem isNumChar_not_blank {c : Char} (h : isNumChar c = true) : isBlank c = false := by
  cases hb : isBlank c with
  | false => rfl
  | true =>
    simp only [isBlank, Bool.or_eq_true, beq_iff_eq] at hb
    rcases hb with ((((rfl | rfl) | rfl) | rfl) | rfl) | rfl <;> revert h <;> decide

theorem isNumChar_not_op {c : Char} (h : isNumChar c = true) : isOpChar c = false := by
  cases hb : isOpChar c with
  | false => rfl
  | true =>
    simp only [isOpChar, Bool.or_eq_true, beq_iff_eq] at hb
    rcases hb with (((rfl | rfl) | rfl) | rfl) | rfl <;> revert h <;> decide

theorem isNumChar_not_lpar {c : Char} (h : isNumChar c = true) : isLParChar c = false := by
  cases hb : isLParChar c with
  | false => rfl
  | true =>
    simp only [isLParChar, Bool.or_eq_true, beq_iff_eq] at hb
    rcases hb with rfl | rfl <;> revert h <;> decide

theorem isNumChar_not_rpar {c : Char} (h : isNumChar c = true) : isRParChar c = false := by
  cases hb : isRParChar c with
  | false => rfl
  | true =>
    simp only [isRParChar, Bool.or_eq_true, beq_iff_eq] at hb
    rcases hb with rfl | rfl <;> revert h <;> decide

/-! ## Tokenizer: equations -/

theorem length_dropWhile_le {α : Type} (p : α → Bool) (l : List α) :
    (l.dropWhile p).length ≤ l.length := by
  induction l with
  | nil => simp
  | cons a l ih =>
    rw [List.dropWhile_cons]
    split
    · exact Nat.le_succ_of_le ih
    · exact Nat.le_refl _

/-- The bound on the iterations does not matter once it covers the input. -/
theorem tokenizeFrom_eq (n : Nat) : ∀ (m : Nat) (src : List Char),
    src.length ≤ n → src.length ≤ m → tokenizeFrom n src = tokenizeFrom m src := by
  induction n with
  | zero =>
    intro m src hn _
    have : src = [] := List.length_eq_zero.mp (Nat.le_zero.mp hn)
    subst this
    cases m <;> rfl
  | succ n ih =>
    intro m src hn hm
    cases src with
    | nil => cases m <;> rfl
    | cons c rest =>
      cases m with
      | zero => simp at hm
      | succ m =>
        have hn1 : rest.length ≤ n := by simpa using hn
        have hm1 : rest.length ≤ m := by simpa using hm
        have hd : ∀ body : List Char, body.length ≤ rest.length + 1 →
            (isNumChar c = true → body = rest ∨ body = c :: rest) →
            isNumChar c = true →
            tokenizeFrom n (body.dropWhile isNumChar) = tokenizeFrom m (body.dropWhile isNumChar) := by
          intro body _ hb hc
          have hlen : (body.dropWhile isNumChar).length ≤ rest.length := by
            rcases hb hc with rfl | rfl
            · exact length_dropWhile_le _ _
            · rw [List.dropWhile_cons_of_pos hc]; exact length_dropWhile_le _ _
          exact ih m _ (le_trans hlen hn1) (le_trans hlen hm1)
        simp only [tokenizeFrom]
        rw [ih m rest hn1 hm1]
        by_cases hc : isNumChar c = true
        · have := hd (if c = '.' then rest else c :: rest)
            (by split <;> simp) (by intro _; split <;> simp) hc
          simp only [this]
        · simp [hc]

theorem tokenize_nil : tokenize [] = [] := rfl

/-- One loop iteration on a character that starts no number. -/
theorem tokenize_cons_other (c : Char) (rest : List Char) (h : isNumChar c = false) :
    tokenize (c :: rest) = charToken c ++ tokenize rest := by
  have e : tokenizeFrom (rest.length + 1) rest = tokenizeFrom rest.length rest :=
    tokenizeFrom_eq _ _ _ (Nat.le_succ _) (Nat.le_refl _)
  simp only [tokenize, List.length_cons, tokenizeFrom, h, charToken]
  by_cases h1 : isBlank c = true
  · simp [h1]
  · by_cases h2 : isOpChar c = true
    · simp [h1, h2]
    · by_cases h3 : isLParChar c = true
      · simp [h1, h2, h3]
      · by_cases h4 : isRParChar c = true
        · simp [h1, h2, h3, h4]
        · simp [h1, h2, h3, h4]

/-- One loop iteration on a character that starts a number. -/
theorem tokenize_cons_num (c : Char) (rest : List Char) (h : isNumChar c = true) :
    tokenize (c :: rest) =
      ⟨numText (c :: rest.takeWhile isNumChar), .T_NUM⟩ :: tokenize (rest.dropWhile isNumChar) := by
  have e : tokenizeFrom rest.length (rest.dropWhile isNumChar) =
      tokenizeFrom (rest.dropWhile isNumChar).length (rest.dropWhile isNumChar) :=
    tokenizeFrom_eq _ _ _ (length_dropWhile_le _ _) (Nat.le_refl _)
  simp only [tokenize, List.length_cons, tokenizeFrom, h, isNumChar_not_blank h,
    isNumChar_not_op h, isNumChar_not_lpar h, isNumChar_not_rpar h, numText]
  by_cases hd : c = '.'
  · subst hd
    simp [e]
  · simp [hd, h, e]

theorem takeWhile_append_stop {α : Type} (p : α → Bool) (a rest : List α)
    (ha : ∀ c ∈ a, p c = true) (hr : ∀ d ∈ rest.head?, p d = false) :
    (a ++ rest).takeWhile p = a ∧ (a ++ rest).dropWhile p = rest := by
  induction a with
  | nil =>
    cases rest with
    | nil => simp
    | cons d r =>
      have hd : p d = false := hr d (by simp)
      simp [hd]
  | cons c a ih =>
    have hc : p c = true := ha c (by simp)
    have := ih (fun x hx => ha x (by simp [hx]))
    simp [hc, this.1, this.2]

/-- A number literal followed by the end of the source or by a character that is
not a number character becomes one `T_NUM` token. -/
theorem tokenize_lit (a rest : List Char) (ha : IsLit a)
    (hr : ∀ d ∈ rest.head?, isNumChar d = false) :
    tokenize (a ++ rest) = ⟨numText a, .T_NUM⟩ :: tokenize rest := by
  obtain ⟨hne, hall⟩ := ha
  cases a with
  | nil => exact absurd rfl hne
  | cons c a =>
    have hc : isNumChar c = true := hall c (by simp)
    have h2 := takeWhile_append_stop isNumChar a rest (fun x hx => hall x (by simp [hx])) hr
    rw [List.cons_append, tokenize_cons_num c _ hc, h2.1, h2.2]

theorem tokenize_lit_end (a : List Char) (ha : IsLit a) :
    tokenize a = [⟨numText a, .T_NUM⟩] := by
  have := tokenize_lit a [] ha (by simp)
  simpa [tokenize_nil] using this

theorem isOpChar_not_num {c : Char} (h : isOpChar c = true) : isNumChar c = false := by
  cases hn : isNumChar c with
  | false => rfl
  | true => rw [isNumChar_not_op hn] at h; cases h

theorem isOpChar_not_blank {c : Char} (h : isOpChar c = true) : isBlank c = false := by
  simp only [isOpChar, Bool.or_eq_true, beq_iff_eq] at h
  rcases h with (((rfl | rfl) | rfl) | rfl) | rfl <;> decide

theorem charToken_op {c : Char} (h : isOpChar c = true) : charToken c = [⟨[c], .T_OP⟩] := by
  simp [charToken, h, isOpChar_not_blank h]

/-- An operator character in the source becomes one `T_OP` token. -/
theorem tokenize_op (c : Char) (rest : List Char) (h : isOpChar c = true) :
    tokenize (c :: rest) = ⟨[c], .T_OP⟩ :: tokenize rest := by
  rw [tokenize_cons_other c rest (isOpChar_not_num h), charToken_op h]; rfl

/-- A number literal followed by an operator character. -/
theorem tokenize_lit_op (a : List Char) (c : Char) (rest : List Char) (ha : IsLit a)
    (h : isOpChar c = true) :
    tokenize (a ++ c :: rest) = ⟨numText a, .T_NUM⟩ :: ⟨[c], .T_OP⟩ :: tokenize rest := by
  rw [tokenize_lit a _ ha (by simpa using isOpChar_not_num h), tokenize_op c rest h]

theorem binop_isSome {α : Type} (A : DoubleOps α) {c : Char} (h : isOpChar c = true) (a b : α) :
    ∃ r, binop A c a b = some r := by
  simp only [isOpChar, Bool.or_eq_true, beq_iff_eq] at h
  rcases h with (((rfl | rfl) | rfl) | rfl) | rfl <;> exact ⟨_, rfl⟩

/-! ## The evaluator never returns -/

/-- After a pop of `Stack<double>` the function that owns the stack does not return:
the assert on an empty stack, the erase at `end()` on any other. -/
theorem Stack.pop_trivial {T : Type} (s : Stack T) : Stack.pop true s = none := by
  cases s <;> rfl

/-- Every run of `calculatePrefix` ends in `return stack.pop()`, a pop of
`Stack<double>`: no call returns a number. -/
theorem calculatePrefix_eq_none {α : Type} (self : Calculator) (A : DoubleOps α)
    (prefix_vector : List Token) : calculatePrefix self A prefix_vector = none := by
  unfold calculatePrefix
  cases evalLoop self A prefix_vector (EvalState.init α) with
  | none => rfl
  | some st => simp [Stack.pop_trivial]

/-- No call of `calculate` returns a number. -/
theorem calculate_eq_none {α : Type} (self : Calculator) (A : DoubleOps α)
    (source : List Char) : self.calculate A source = none := by
  unfold Calculator.calculate
  cases toPrefix (tokenize source) with
  | none => rfl
  | some l => exact calculatePrefix_eq_none self A l

/-- Converter on `a op b op c`: both operators stay on the stack until the end, so
the output is `a b c op op`. -/
theorem toPrefix_chain (x y z : List Char) (op : Char) (h : isOpChar op = true) :
    toPrefix [⟨x, .T_NUM⟩, ⟨[op], .T_OP⟩, ⟨y, .T_NUM⟩, ⟨[op], .T_OP⟩, ⟨z, .T_NUM⟩] =
      some [⟨x, .T_NUM⟩, ⟨y, .T_NUM⟩, ⟨z, .T_NUM⟩, ⟨[op], .T_OP⟩, ⟨[op], .T_OP⟩] := by
  simp only [isOpChar, Bool.or_eq_true, beq_iff_eq] at h
  rcases h with (((rfl | rfl) | rfl) | rfl) | rfl <;> rfl

theorem isOpChar_opSym (op : OpSym) : isOpChar op.char = true := by
  cases op <;> rfl

/-- C1 (what the code does): on the source `a op b op c` the converter keeps both
operators on its stack to the end; its output `a b c op op` is the traversal of
`a op (b op c)`, which is not that of `(a op b) op c`. The evaluator then pops its
`Stack<double>`, the erase at `end()`: `calculate` returns no number. -/
theorem chain_groups_right {α : Type} (self : Calculator) (A : DoubleOps α)
    (a b c : List Char) (op : OpSym) (ha : IsLit a) (hb : IsLit b) (hc : IsLit c) :
    toPrefix (tokenize (a ++ op.char :: (b ++ op.char :: c))) =
        some (Tree.node op (.leaf (numText a))
          (.node op (.leaf (numText b)) (.leaf (numText c)))).postorder ∧
      (Tree.node op (.leaf (numText a))
          (.node op (.leaf (numText b)) (.leaf (numText c)))).postorder ≠
        (Tree.node op (.node op (.leaf (numText a)) (.leaf (numText b)))
          (.leaf (numText c))).postorder ∧
      self.calculate A (a ++ op.char :: (b ++ op.char :: c)) = none := by
  refine ⟨?_, ?_, calculate_eq_none self A _⟩
  · rw [tokenize_lit_op a op.char _ ha (isOpChar_opSym op),
      tokenize_lit_op b op.char _ hb (isOpChar_opSym op), tokenize_lit_end c hc,
      toPrefix_chain _ _ _ op.char (isOpChar_opSym op)]
    rfl
  · simp [Tree.postorder]

/-- C1 at `10-5-2` and `2^3^2`, base 10: the converter gives `10 5 2 - -` and
`2 3 2 ^ ^`, and the calls return no number. -/
theorem chain_groups_right_witness :
    IsLit "10".toList ∧ IsLit "5".toList ∧ IsLit "2".toList ∧ IsLit "3".toList ∧
      toPrefix (tokenize "10-5-2".toList) = some (tokenize "10 5 2--".toList) ∧
      toPrefix (tokenize "2^3^2".toList) = some (tokenize "2 3 2^^".toList) ∧
      Calculator.calculate ⟨10, false⟩ exactOps "10-5-2".toList = none ∧
      Calculator.calculate ⟨10, false⟩ exactOps "2^3^2".toList = none :=
  ⟨by decide, by decide, by decide, by decide,
    ((chain_groups_right ⟨10, false⟩ exactOps "10".toList "5".toList "2".toList .sub
      (by decide) (by decide) (by decide)).1).trans (by decide),
    ((chain_groups_right ⟨10, false⟩ exactOps "2".toList "3".toList "2".toList .pow
      (by decide) (by decide) (by decide)).1).trans (by decide),
    (chain_groups_right ⟨10, false⟩ exactOps "10".toList "5".toList "2".toList .sub
      (by decide) (by decide) (by decide)).2.2,
    (chain_groups_right ⟨10, false⟩ exactOps "2".toList "3".toList "2".toList .pow
      (by decide) (by decide) (by decide)).2.2⟩

/-! ## Precedence and parentheses -/

/-- C2 (what the code does): the converter gets the precedence right, its output on
`a+b*c` is the traversal of `a + (b*c)` and on `(a+b)*c` that of `(a+b) * c`; the
evaluator then pops its `Stack<double>`, the erase at `end()`, so `calculate` returns
no number on either source. -/
theorem precedence_converted {α : Type} (self : Calculator) (A : DoubleOps α)
    (a b c : List Char) (ha : IsLit a) (hb : IsLit b) (hc : IsLit c) :
    toPrefix (tokenize (a ++ '+' :: (b ++ '*' :: c))) =
        some (Tree.node .add (.leaf (numText a))
          (.node .mul (.leaf (numText b)) (.leaf (numText c)))).postorder ∧
      toPrefix (tokenize ('(' :: (a ++ '+' :: (b ++ ')' :: '*' :: c)))) =
        some (Tree.node .mul (.node .add (.leaf (numText a)) (.leaf (numText b)))
          (.leaf (numText c))).postorder ∧
      self.calculate A (a ++ '+' :: (b ++ '*' :: c)) = none ∧
      self.calculate A ('(' :: (a ++ '+' :: (b ++ ')' :: '*' :: c))) = none := by
  refine ⟨?_, ?_, calculate_eq_none self A _, calculate_eq_none self A _⟩
  · rw [tokenize_lit_op a '+' _ ha rfl, tokenize_lit_op b '*' _ hb rfl, tokenize_lit_end c hc]
    rfl
  · rw [tokenize_cons_other '(' _ rfl, tokenize_lit_op a '+' _ ha rfl,
      tokenize_lit b _ hb (by simp [isNumChar]), tokenize_cons_other ')' _ rfl,
      tokenize_op '*' _ rfl, tokenize_lit_end c hc]
    rfl

/-- C2 at `a = 2`, `b = 3`, `c = 4`, base 10: the converter gives `2 3 4 * +` and
`2 3 + 4 *`, and the calls return no number. -/
theorem precedence_converted_witness :
    IsLit "2".toList ∧ IsLit "3".toList ∧ IsLit "4".toList ∧
      toPrefix (tokenize "2+3*4".toList) = some (tokenize "2 3 4*+".toList) ∧
      toPrefix (tokenize "(2+3)*4".toList) = some (tokenize "2 3+4*".toList) ∧
      Calculator.calculate ⟨10, false⟩ exactOps "2+3*4".toList = none ∧
      Calculator.calculate ⟨10, false⟩ exactOps "(2+3)*4".toList = none :=
  ⟨by decide, by decide, by decide,
    ((precedence_converted ⟨10, false⟩ exactOps "2".toList "3".toList "4".toList
      (by decide) (by decide) (by decide)).1).trans (by decide),
    ((precedence_converted ⟨10, false⟩ exactOps "2".toList "3".toList "4".toList
      (by decide) (by decide) (by decide)).2.1).trans (by decide),
    (precedence_converted ⟨10, false⟩ exactOps "2".toList "3".toList "4".toList
      (by decide) (by decide) (by decide)).2.2.1,
    (precedence_converted ⟨10, false⟩ exactOps "2".toList "3".toList "4".toList
      (by decide) (by decide) (by decide)).2.2.2⟩

/-! ## Unary and binary minus -/

/-- C3 (what the code does): the converter turns `-n` into `n -` and `a-b` into
`a b -`; the evaluator then pops its `Stack<double>`, the erase at `end()`, so
`calculate` returns no number on either source. -/
theorem minus_converted {α : Type} (self : Calculator) (A : DoubleOps α)
    (n a b : List Char) (hn : IsLit n) (ha : IsLit a) (hb : IsLit b) :
    toPrefix (tokenize ('-' :: n)) = some [⟨numText n, .T_NUM⟩, ⟨['-'], .T_OP⟩] ∧
      toPrefix (tokenize (a ++ '-' :: b)) =
        some [⟨numText a, .T_NUM⟩, ⟨numText b, .T_NUM⟩, ⟨['-'], .T_OP⟩] ∧
      self.calculate A ('-' :: n) = none ∧
      self.calculate A (a ++ '-' :: b) = none := by
  refine ⟨?_, ?_, calculate_eq_none self A _, calculate_eq_none self A _⟩
  · rw [tokenize_op '-' _ rfl, tokenize_lit_end n hn]
    rfl
  · rw [tokenize_lit_op a '-' _ ha rfl, tokenize_lit_end b hb]
    rfl

/-- C3 at `-5` and `3-5`, base 10: the converter gives `5 -` and `3 5 -`, and the
calls return no number. -/
theorem minus_converted_witness :
    IsLit "5".toList ∧ IsLit "3".toList ∧
      toPrefix (tokenize "-5".toList) = some (tokenize "5-".toList) ∧
      toPrefix (tokenize "3-5".toList) = some (tokenize "3 5-".toList) ∧
      Calculator.calculate ⟨10, false⟩ exactOps "-5".toList = none ∧
      Calculator.calculate ⟨10, false⟩ exactOps "3-5".toList = none :=
  ⟨by decide, by decide,
    ((minus_converted ⟨10, false⟩ exactOps "5".toList "3".toList "5".toList
      (by decide) (by decide) (by decide)).1).trans (by decide),
    ((minus_converted ⟨10, false⟩ exactOps "5".toList "3".toList "5".toList
      (by decide) (by decide) (by decide)).2.1).trans (by decide),
    (minus_converted ⟨10, false⟩ exactOps "5".toList "3".toList "5".toList
      (by decide) (by decide) (by decide)).2.2.1,
    (minus_converted ⟨10, false⟩ exactOps "5".toList "3".toList "5".toList
      (by decide) (by decide) (by decide)).2.2.2⟩

/-! ## The value returned by the evaluator -/

/-- Induction along the loop of the tokenizer: a character that starts no number is
followed by the rest of the source, a character that starts a number by what
follows the run of number characters. -/
theorem tokenize_induction {P : List Char → Prop} (hnil : P [])
    (hother : ∀ c rest, isNumChar c = false → P rest → P (c :: rest))
    (hnum : ∀ c rest, isNumChar c = true → P (rest.dropWhile isNumChar) → P (c :: rest)) :
    ∀ src, P src := by
  have key : ∀ n (src : List Char), src.length ≤ n → P src := by
    intro n
    induction n with
    | zero =>
      intro src h
      have : src = [] := List.length_eq_zero.mp (Nat.le_zero.mp h)
      subst this
      exact hnil
    | succ n ih =>
      intro src h
      cases src with
      | nil => exact hnil
      | cons c rest =>
        have hr : rest.length ≤ n := by simpa using h
        cases hc : isNumChar c with
        | false => exact hother c rest hc (ih rest hr)
        | true =>
          exact hnum c rest hc (ih _ (le_trans (length_dropWhile_le _ _) hr))
  intro src
  exact key src.length src (Nat.le_refl _)

/-- A character that is no bracket gives no token, or one token that is no bracket. -/
theorem charToken_no_bracket {c : Char} (hl : isLParChar c = false) (hr : isRParChar c = false) :
    charToken c = [] ∨ ∃ t, charToken c = [t] ∧ t.type ≠ .T_LPAR ∧ t.type ≠ .T_RPAR := by
  unfold charToken
  by_cases h1 : isBlank c = true
  · left; simp [h1]
  · right
    by_cases h2 : isOpChar c = true
    · exact ⟨⟨[c], .T_OP⟩, by simp [h1, h2], by simp, by simp⟩
    · exact ⟨⟨[c], .T_UNKNOWN⟩, by simp [h1, h2, hl, hr], by simp, by simp⟩

theorem popHigher_lparCount (token : Token) : ∀ (stack out : List Token) (r : Stack Token × List Token),
    popHigher token stack out = some r → lparCount r.1 = lparCount stack := by
  intro stack
  induction stack with
  | nil =>
    intro out r h
    simp only [popHigher, Option.some.injEq] at h
    subst h; rfl
  | cons top stack ih =>
    intro out r h
    unfold popHigher at h
    by_cases ht : top.type = .T_LPAR
    · simp only [ht, if_true, Option.some.injEq] at h
      subst h; rfl
    · simp only [ht, if_false] at h
      cases hp : PRECENDENCE token.value with
      | none => simp [hp] at h
      | some p =>
        cases hq : PRECENDENCE top.value with
        | none => simp [hp, hq] at h
        | some q =>
          simp only [hp, hq] at h
          by_cases hlt : p < q
          · simp only [hlt, if_true] at h
            rw [ih _ _ h]
            simp [lparCount, ht]
          · simp only [hlt, if_false, Option.some.injEq] at h
            subst h; rfl

theorem popToLPar_lparCount : ∀ (stack out : List Token) (r : Stack Token × List Token),
    popToLPar stack out = some r → lparCount stack = lparCount r.1 + 1 := by
  intro stack
  induction stack with
  | nil => intro out r h; simp [popToLPar] at h
  | cons top stack ih =>
    intro out r h
    unfold popToLPar at h
    by_cases ht : top.type = .T_LPAR
    · simp only [ht, if_true, Option.some.injEq] at h
      subst h
      simp [lparCount, ht, Nat.add_comm]
    · simp only [ht, if_false] at h
      rw [← ih _ _ h]
      simp [lparCount, ht]

/-- With no `T_LPAR` on the stack the `T_RPAR` case empties the stack and fails. -/
theorem popToLPar_none : ∀ (stack out : List Token), lparCount stack = 0 →
    popToLPar stack out = none := by
  intro stack
  induction stack with
  | nil => intro out _; rfl
  | cons top stack ih =>
    intro out h
    unfold popToLPar
    by_cases ht : top.type = .T_LPAR
    · simp [lparCount, ht] at h
    · simp only [ht, if_false]
      exact ih _ (by simpa [lparCount, ht] using h)

/-- The converter fails when a `T_RPAR` token comes while no `T_LPAR` is open. -/
theorem toPrefixLoop_closesUnopened : ∀ (tokens : List Token) (st : Stack Token × List Token),
    closesUnopenedTok (lparCount st.1) tokens = true → toPrefixLoop tokens st = none := by
  intro tokens
  induction tokens with
  | nil => intro st h; simp [closesUnopenedTok] at h
  | cons t rest ih =>
    intro st h
    unfold toPrefixLoop toPrefixStep
    cases hty : t.type with
    | T_NUM =>
      simp only [closesUnopenedTok, hty] at h
      simp only [Option.some_bind]
      exact ih _ (by simpa using h)
    | T_OP =>
      simp only [closesUnopenedTok, hty] at h
      cases hp : popHigher t st.1 st.2 with
      | none => rfl
      | some r =>
        simp only [Option.map_some', Option.some_bind]
        apply ih
        have hc := popHigher_lparCount t _ _ r hp
        simpa [Stack.push, lparCount, hty, hc] using h
    | T_LPAR =>
      simp only [closesUnopenedTok, hty] at h
      simp only [Option.some_bind]
      apply ih
      simpa [Stack.push, lparCount, hty, Nat.add_comm] using h
    | T_RPAR =>
      simp only [closesUnopenedTok, hty] at h
      cases hp : popToLPar st.1 st.2 with
      | none => rfl
      | some r =>
        simp only [Option.some_bind]
        apply ih
        have hc := popToLPar_lparCount _ _ r hp
        rw [hc] at h
        simpa using h
    | T_UNKNOWN =>
      simp only [closesUnopenedTok, hty] at h
      simp only [Option.some_bind]
      exact ih _ (by simpa using h)

theorem blankUnknown_num {c : Char} (h : isNumChar c = true) : blankUnknown c = c := by
  simp [blankUnknown, isUnknownChar, h]

theorem isNumChar_blankUnknown (c : Char) : isNumChar (blankUnknown c) = isNumChar c := by
  unfold blankUnknown
  by_cases hu : isUnknownChar c = true
  · rw [if_pos hu]
    simp only [isUnknownChar, Bool.and_eq_true, Bool.not_eq_true'] at hu
    rw [hu.2]; rfl
  · rw [if_neg hu]

theorem takeWhile_map_numFix (f : Char → Char) (h1 : ∀ c, isNumChar (f c) = isNumChar c)
    (h2 : ∀ c, isNumChar c = true → f c = c) (l : List Char) :
    (l.map f).takeWhile isNumChar = l.takeWhile isNumChar := by
  induction l with
  | nil => rfl
  | cons c l ih =>
    cases hc : isNumChar c with
    | true =>
      rw [List.map_cons, h2 c hc, List.takeWhile_cons_of_pos hc,
        List.takeWhile_cons_of_pos hc, ih]
    | false =>
      have : isNumChar (f c) = false := by rw [h1, hc]
      rw [List.map_cons, List.takeWhile_cons_of_neg (by simp [this]),
        List.takeWhile_cons_of_neg (by simp [hc])]

theorem dropWhile_map_numFix (f : Char → Char) (h1 : ∀ c, isNumChar (f c) = isNumChar c)
    (h2 : ∀ c, isNumChar c = true → f c = c) (l : List Char) :
    (l.map f).dropWhile isNumChar = (l.dropWhile isNumChar).map f := by
  induction l with
  | nil => rfl
  | cons c l ih =>
    cases hc : isNumChar c with
    | true =>
      rw [List.map_cons, h2 c hc, List.dropWhile_cons_of_pos hc,
        List.dropWhile_cons_of_pos hc, ih]
    | false =>
      have : isNumChar (f c) = false := by rw [h1, hc]
      rw [List.map_cons, List.dropWhile_cons_of_neg (by simp [this]),
        List.dropWhile_cons_of_neg (by simp [hc]), List.map_cons]

theorem charToken_blankUnknown {c : Char} (hc : isNumChar c = false) :
    charToken (blankUnknown c) = (charToken c).filter (fun t => decide (t.type ≠ .T_UNKNOWN)) := by
  unfold blankUnknown
  by_cases hu : isUnknownChar c = true
  · rw [if_pos hu]
    simp only [isUnknownChar, Bool.and_eq_true, Bool.not_eq_true'] at hu
    obtain ⟨⟨⟨⟨h1, h2⟩, h3⟩, h4⟩, _⟩ := hu
    simp [charToken, h1, h2, h3, h4]
    decide
  · rw [if_neg hu]
    unfold charToken
    by_cases h1 : isBlank c = true
    · simp [h1]
    · by_cases h2 : isOpChar c = true
      · simp [h1, h2]
      · by_cases h3 : isLParChar c = true
        · simp [h1, h2, h3]
        · by_cases h4 : isRParChar c = true
          · simp [h1, h2, h3, h4]
          · exfalso
            apply hu
            simp [isUnknownChar, h1, h2, h3, h4, hc]

/-- Blanking the unknown characters of a source removes the `T_UNKNOWN` tokens and
leaves the other tokens as they are. -/
theorem tokenize_map_blankUnknown (src : List Char) :
    tokenize (src.map blankUnknown) =
      (tokenize src).filter (fun t => decide (t.type ≠ .T_UNKNOWN)) := by
  induction src using tokenize_induction with
  | hnil => rfl
  | hother c rest hc ih =>
    have hc2 : isNumChar (blankUnknown c) = false := by rw [isNumChar_blankUnknown, hc]
    rw [List.map_cons, tokenize_cons_other _ _ hc2, tokenize_cons_other _ _ hc,
      List.filter_append, ih, charToken_blankUnknown hc]
  | hnum c rest hc ih =>
    rw [List.map_cons, blankUnknown_num hc, tokenize_cons_num _ _ hc, tokenize_cons_num _ _ hc,
      takeWhile_map_numFix _ isNumChar_blankUnknown (fun _ h => blankUnknown_num h),
      dropWhile_map_numFix _ isNumChar_blankUnknown (fun _ h => blankUnknown_num h), ih]
    simp

/-- The converter passes over `T_UNKNOWN` tokens. -/
theorem toPrefixLoop_filter_unknown : ∀ (tokens : List Token) (st : Stack Token × List Token),
    toPrefixLoop (tokens.filter (fun t => decide (t.type ≠ .T_UNKNOWN))) st =
      toPrefixLoop tokens st := by
  intro tokens
  induction tokens with
  | nil => intro st; rfl
  | cons t rest ih =>
    intro st
    by_cases ht : t.type = .T_UNKNOWN
    · rw [List.filter_cons_of_neg (by simp [ht]), ih]
      simp [toPrefixLoop, toPrefixStep, ht]
    · rw [List.filter_cons_of_pos (by simp [ht])]
      simp only [toPrefixLoop]
      cases toPrefixStep st t with
      | none => rfl
      | some st2 => simp only [Option.some_bind]; exact ih st2

/-- An unknown character counts for nothing in the converter: its output is that of
the source with every such character replaced by a space. -/
theorem toPrefix_blankUnknown (source : List Char) :
    toPrefix (tokenize source) = toPrefix (tokenize (source.map blankUnknown)) := by
  unfold toPrefix
  rw [tokenize_map_blankUnknown, toPrefixLoop_filter_unknown]

theorem roundBrackets_num {c : Char} (h : isNumChar c = true) : roundBrackets c = c := by
  unfold roundBrackets
  by_cases h1 : c = '['
  · subst h1; revert h; decide
  · by_cases h2 : c = ']'
    · subst h2; revert h; decide
    · simp [h1, h2]

theorem isNumChar_roundBrackets (c : Char) : isNumChar (roundBrackets c) = isNumChar c := by
  unfold roundBrackets
  by_cases h1 : c = '['
  · subst h1; decide
  · by_cases h2 : c = ']'
    · subst h2; decide
    · simp [h1, h2]

theorem charToken_roundBrackets {c : Char} (hc : isNumChar c = false) :
    charToken (roundBrackets c) = (charToken c).map roundToken := by
  by_cases hl : isLParChar c = true
  · simp only [isLParChar, Bool.or_eq_true, beq_iff_eq] at hl
    rcases hl with rfl | rfl <;> decide
  · by_cases hr : isRParChar c = true
    · simp only [isRParChar, Bool.or_eq_true, beq_iff_eq] at hr
      rcases hr with rfl | rfl <;> decide
    · have hl2 : isLParChar c = false := by simpa using hl
      have hr2 : isRParChar c = false := by simpa using hr
      have hc1 : c ≠ '[' := by rintro rfl; revert hl2; decide
      have hc2 : c ≠ ']' := by rintro rfl; revert hr2; decide
      have hrb : roundBrackets c = c := by simp [roundBrackets, hc1, hc2]
      rw [hrb]
      rcases charToken_no_bracket hl2 hr2 with h0 | ⟨t, ht, h1, h2⟩
      · rw [h0]; rfl
      · rw [ht]; simp [roundToken, h1, h2]

/-- Tokens of the source with round brackets only. -/
theorem tokenize_map_roundBrackets (src : List Char) :
    tokenize (src.map roundBrackets) = (tokenize src).map roundToken := by
  induction src using tokenize_induction with
  | hnil => rfl
  | hother c rest hc ih =>
    have hc2 : isNumChar (roundBrackets c) = false := by rw [isNumChar_roundBrackets, hc]
    rw [List.map_cons, tokenize_cons_other _ _ hc2, tokenize_cons_other _ _ hc,
      List.map_append, ih, charToken_roundBrackets hc]
  | hnum c rest hc ih =>
    rw [List.map_cons, roundBrackets_num hc, tokenize_cons_num _ _ hc, tokenize_cons_num _ _ hc,
      takeWhile_map_numFix _ isNumChar_roundBrackets (fun _ h => roundBrackets_num h),
      dropWhile_map_numFix _ isNumChar_roundBrackets (fun _ h => roundBrackets_num h), ih]
    simp [roundToken]

theorem roundLPar_type (t : Token) : (roundLPar t).type = t.type := by
  unfold roundLPar; split <;> rfl

theorem roundLPar_of_ne {t : Token} (h : t.type ≠ .T_LPAR) : roundLPar t = t := by
  simp [roundLPar, h]

theorem roundToken_type (t : Token) : (roundToken t).type = t.type := by
  unfold roundToken; split <;> rfl

theorem roundToken_of_ne {t : Token} (h1 : t.type ≠ .T_LPAR) (h2 : t.type ≠ .T_RPAR) :
    roundToken t = t := by
  simp [roundToken, h1, h2]

theorem roundToken_lpar {t : Token} (h : t.type = .T_LPAR) : roundToken t = roundLPar t := by
  simp [roundToken, roundLPar, h]

theorem popHigher_roundLPar (token : Token) : ∀ (stack out : List Token),
    popHigher token (stack.map roundLPar) (out.map roundLPar) =
      (popHigher token stack out).map fun r => (r.1.map roundLPar, r.2.map roundLPar) := by
  intro stack
  induction stack with
  | nil => intro out; rfl
  | cons top stack ih =>
    intro out
    by_cases ht : top.type = .T_LPAR
    · simp [popHigher, roundLPar_type, ht]
    · have e : roundLPar top = top := roundLPar_of_ne ht
      simp only [List.map_cons, popHigher, e, ht, if_false]
      cases PRECENDENCE token.value with
      | none => rfl
      | some p =>
        cases PRECENDENCE top.value with
        | none => rfl
        | some q =>
          by_cases hlt : p < q
          · have := ih (out ++ [top])
            simp only [List.map_append, List.map_cons, List.map_nil, e] at this
            simp only [hlt, if_true, this]
          · simp [hlt, e]

theorem popToLPar_roundLPar : ∀ (stack out : List Token),
    popToLPar (stack.map roundLPar) (out.map roundLPar) =
      (popToLPar stack out).map fun r => (r.1.map roundLPar, r.2.map roundLPar) := by
  intro stack
  induction stack with
  | nil => intro out; rfl
  | cons top stack ih =>
    intro out
    by_cases ht : top.type = .T_LPAR
    · simp [popToLPar, roundLPar_type, ht]
    · have e : roundLPar top = top := roundLPar_of_ne ht
      have := ih (out ++ [top])
      simp only [List.map_append, List.map_cons, List.map_nil, e] at this
      simp only [List.map_cons, popToLPar, e, ht, if_false, this]

/-- The converter on the tokens with round brackets runs as on the original tokens;
its stack and output differ in the text of the `T_LPAR` tokens only. -/
theorem toPrefixLoop_roundToken : ∀ (tokens : List Token) (stack out : List Token),
    toPrefixLoop (tokens.map roundToken) (stack.map roundLPar, out.map roundLPar) =
      (toPrefixLoop tokens (stack, out)).map fun r =>
        (r.1.map roundLPar, r.2.map roundLPar) := by
  intro tokens
  induction tokens with
  | nil => intro stack out; rfl
  | cons t rest ih =>
    intro stack out
    simp only [List.map_cons, toPrefixLoop, toPrefixStep, roundToken_type]
    cases hty : t.type with
    | T_NUM =>
      have e : roundToken t = t := roundToken_of_ne (by simp [hty]) (by simp [hty])
      have := ih stack (out ++ [t])
      simp only [List.map_append, List.map_cons, List.map_nil,
        roundLPar_of_ne (show t.type ≠ .T_LPAR by simp [hty])] at this
      simp only [e, Option.some_bind, this]
    | T_OP =>
      have e : roundToken t = t := roundToken_of_ne (by simp [hty]) (by simp [hty])
      simp only [e, popHigher_roundLPar]
      cases popHigher t stack out with
      | none => rfl
      | some r =>
        have := ih (t :: r.1) r.2
        simp only [List.map_cons, roundLPar_of_ne (show t.type ≠ .T_LPAR by simp [hty])] at this
        simp only [Option.map_some', Option.some_bind, Stack.push, this]
    | T_LPAR =>
      have := ih (t :: stack) out
      simp only [List.map_cons] at this
      simp only [Option.some_bind, Stack.push, roundToken_lpar hty, this]
    | T_RPAR =>
      simp only [popToLPar_roundLPar]
      cases popToLPar stack out with
      | none => rfl
      | some r => simp only [Option.map_some', Option.some_bind]; exact ih r.1 r.2
    | T_UNKNOWN =>
      simp only [Option.some_bind]
      exact ih stack out

theorem toPrefix_roundToken (tokens : List Token) :
    toPrefix (tokens.map roundToken) = (toPrefix tokens).map (List.map roundLPar) := by
  have := toPrefixLoop_roundToken tokens [] []
  simp only [List.map_nil] at this
  unfold toPrefix
  rw [this]
  cases toPrefixLoop tokens ([], []) with
  | none => rfl
  | some r => simp

/-- The evaluator passes over `T_LPAR` tokens, whatever their text. -/
theorem evalLoop_roundLPar {α : Type} (self : Calculator) (A : DoubleOps α) :
    ∀ (tokens : List Token) (st : EvalState α),
      evalLoop self A (tokens.map roundLPar) st = evalLoop self A tokens st := by
  intro tokens
  induction tokens with
  | nil => intro st; rfl
  | cons t rest ih =>
    intro st
    have hs : evalStep self A st (roundLPar t) = evalStep self A st t := by
      by_cases ht : t.type = .T_LPAR
      · simp [evalStep, roundLPar_type, ht]
      · rw [roundLPar_of_ne ht]
    simp only [List.map_cons, evalLoop, hs]
    cases evalStep self A st t with
    | none => rfl
    | some st2 => simp only [Option.some_bind]; exact ih st2

/-- C10 (what the code does): writing `(` for every `[` and `)` for every `]` in a
source changes neither the outcome of `calculate` nor, up to the text of the
`T_LPAR` tokens left in it, the output of the converter; but the outcome is a
failure on every source: on `[2+3)*4` and on `(2+3)*4` the converter gives
`2 3 + 4 *` and the call returns no number. -/
theorem calculate_roundBrackets {α : Type} (self : Calculator) (A : DoubleOps α)
    (source : List Char) :
    self.calculate A source = self.calculate A (source.map roundBrackets) ∧
      toPrefix (tokenize (source.map roundBrackets)) =
        (toPrefix (tokenize source)).map (List.map roundLPar) ∧
      "[2+3)*4".toList.map roundBrackets = "(2+3)*4".toList ∧
      toPrefix (tokenize "[2+3)*4".toList) = some (tokenize "2 3+4*".toList) ∧
      toPrefix (tokenize "(2+3)*4".toList) = some (tokenize "2 3+4*".toList) ∧
      Calculator.calculate ⟨10, false⟩ exactOps "[2+3)*4".toList = none ∧
      Calculator.calculate ⟨10, false⟩ exactOps "(2+3)*4".toList = none := by
  refine ⟨?_, ?_, by decide, by decide, by decide, calculate_eq_none _ _ _,
    calculate_eq_none _ _ _⟩
  · unfold Calculator.calculate
    rw [tokenize_map_roundBrackets, toPrefix_roundToken]
    cases toPrefix (tokenize source) with
    | none => rfl
    | some l =>
      simp only [Option.map_some', Option.some_bind, calculatePrefix, evalLoop_roundLPar]
  · rw [tokenize_map_roundBrackets, toPrefix_roundToken]

/-! ## Numerals in a base other than 10 -/

theorem isDigitOf_isNumChar {b : Nat} {c : Char} (h : isDigitOf b c = true) :
    isNumChar c = true := by
  unfold isDigitOf digitVal at h
  unfold isNumChar
  by_cases h1 : '0' ≤ c ∧ c ≤ '9'
  · simp [h1.1, h1.2]
  · by_cases h2 : 'a' ≤ c ∧ c ≤ 'z'
    · simp [h2.1, h2.2]
    · by_cases h3 : 'A' ≤ c ∧ c ≤ 'Z'
      · simp [h3.1, h3.2]
      · simp [h1, h2, h3] at h

theorem isNumChar_not_space {c : Char} (h : isNumChar c = true) : isspace c = false := by
  cases hb : isspace c with
  | false => rfl
  | true =>
    simp only [isspace, Bool.or_eq_true, beq_iff_eq] at hb
    rcases hb with ((((rfl | rfl) | rfl) | rfl) | rfl) | rfl <;> revert h <;> decide

theorem isNumChar_not_sign {c : Char} (h : isNumChar c = true) : c ≠ '-' ∧ c ≠ '+' := by
  constructor <;> rintro rfl <;> revert h <;> decide

theorem isDigitOf_zero {b : Nat} (hb : 2 ≤ b) : isDigitOf b '0' = true := by
  have : digitVal '0' = some 0 := by decide
  simp only [isDigitOf, this, decide_eq_true_eq]
  omega

theorem takeWhile_eq_self {α : Type} (p : α → Bool) (l : List α) (h : ∀ c ∈ l, p c = true) :
    l.takeWhile p = l := by
  have := takeWhile_append_stop p l [] h (by simp)
  simpa using this.1

/-- The library call on a text made of digits of the base only: the positional value
of the whole text. -/
theorem stoi_digits (b : Nat) (text : List Char) (hb2 : 2 ≤ b) (hb36 : b ≤ 36)
    (hne : text ≠ []) (hall : ∀ c ∈ text, isDigitOf b c = true)
    (hfit : digitsValue b text ≤ 2147483647) :
    stoi text (b : Int) = some (digitsValue b text : Int) := by
  cases text with
  | nil => exact absurd rfl hne
  | cons c r =>
    have hc : isDigitOf b c = true := hall c (by simp)
    have hn : isNumChar c = true := isDigitOf_isNumChar hc
    have hsp : isspace c = false := isNumChar_not_space hn
    have hsg := isNumChar_not_sign hn
    have hbase : ¬ ((b : Int) < 0 ∨ (b : Int) = 1 ∨ 36 < (b : Int)) := by omega
    have hhex : (decide ((b : Int) = 0 ∨ (b : Int) = 16) && hasHexPrefix (c :: r)) = false := by
      by_cases h16 : b = 16
      · subst h16
        cases hp : hasHexPrefix (c :: r) with
        | false => simp
        | true =>
          exfalso
          match r, hall, hp with
          | [], _, hp => simp [hasHexPrefix] at hp
          | [_], _, hp => simp [hasHexPrefix] at hp
          | x :: d :: _, hall, hp =>
            have hx : isDigitOf 16 x = true := hall x (by simp)
            unfold hasHexPrefix at hp
            split at hp
            · rename_i heq
              simp only [List.cons.injEq] at heq
              obtain ⟨_, rfl, _⟩ := heq
              simp only [Bool.and_eq_true, Bool.or_eq_true, beq_iff_eq] at hp
              rcases hp.1 with rfl | rfl <;> revert hx <;> decide
            · cases hp
      · have : ¬ ((b : Int) = 0 ∨ (b : Int) = 16) := by omega
        rw [decide_eq_false this, Bool.false_and]
    have hd : (c :: r).dropWhile isspace = c :: r :=
      List.dropWhile_cons_of_neg (by simp [hsp])
    have htw : (c :: r).takeWhile (isDigitOf b) = c :: r := takeWhile_eq_self _ _ hall
    have hv : (0 : Int) ≤ (digitsValue b (c :: r) : Int) := Int.ofNat_nonneg _
    have hfit2 : ((digitsValue b (c :: r) : Nat) : Int) ≤ 2147483647 := by exact_mod_cast hfit
    unfold stoi
    rw [if_neg hbase]
    simp only [hd, List.head?_cons, Option.some.injEq, hsg.1, hsg.2, or_self, if_false, hhex,
      Bool.false_eq_true, Int.toNat_ofNat, decide_False]
    have hb0 : ¬ ((b : Int) = 0) := by omega
    simp only [hb0, if_false, htw]
    rw [if_neg (by simp)]
    rw [if_neg (by omega)]

/-- The library call on a token text that does not start with a digit of the base:
it throws. -/
theorem stoi_no_digit (b : Nat) (text : List Char) (hb2 : 2 ≤ b) (hb36 : b ≤ 36)
    (h : ∀ d ∈ text.head?, isNumChar d = true ∧ isDigitOf b d = false) :
    stoi text (b : Int) = none := by
  have hbase : ¬ ((b : Int) < 0 ∨ (b : Int) = 1 ∨ 36 < (b : Int)) := by omega
  have hb0 : ¬ ((b : Int) = 0) := by omega
  cases text with
  | nil =>
    unfold stoi
    rw [if_neg hbase]
    simp [hasHexPrefix]
  | cons c r =>
    obtain ⟨hn, hnd⟩ := h c (by simp)
    have hsp : isspace c = false := isNumChar_not_space hn
    have hsg := isNumChar_not_sign hn
    have hc0 : c ≠ '0' := by
      rintro rfl
      rw [isDigitOf_zero hb2] at hnd
      cases hnd
    have hhex : hasHexPrefix (c :: r) = false := by
      unfold hasHexPrefix
      split
      · rename_i heq
        simp only [List.cons.injEq] at heq
        exact absurd heq.1 hc0
      · rfl
    have hd : (c :: r).dropWhile isspace = c :: r :=
      List.dropWhile_cons_of_neg (by simp [hsp])
    have htw : (c :: r).takeWhile (isDigitOf b) = [] :=
      List.takeWhile_cons_of_neg (by simp [hnd])
    unfold stoi
    rw [if_neg hbase]
    simp only [hd, List.head?_cons, Option.some.injEq, hsg.1, hsg.2, or_self, if_false, hhex,
      Bool.and_false, Bool.false_eq_true, Int.toNat_ofNat, hb0, htw, if_true]

theorem isDigitOf_ne_point {b : Nat} {c : Char} (h : isDigitOf b c = true) : c ≠ '.' := by
  rintro rfl
  have : digitVal '.' = none := by decide
  simp [isDigitOf, this] at h

/-- At a base from 2 to 36 other than 10, a `T_NUM` token whose text is empty or starts
with a number character that is not a digit of the base makes the evaluator fail,
in one iteration and as the only token. -/
theorem evalStep_number_no_digit {α : Type} (b : Nat) (verbose : Bool) (A : DoubleOps α)
    (st : EvalState α) (token : Token) (hb2 : 2 ≤ b) (hb36 : b ≤ 36) (hb10 : b ≠ 10)
    (hty : token.type = .T_NUM)
    (h : ∀ d ∈ token.value.head?, isNumChar d = true ∧ isDigitOf b d = false) :
    evalStep ⟨(b : Int), verbose⟩ A st token = none ∧
      calculatePrefix ⟨(b : Int), verbose⟩ A [token] = none := by
  have hb : ¬ ((b : Int) = 10) := by omega
  have hs : ∀ s : EvalState α, evalStep ⟨(b : Int), verbose⟩ A s token = none := by
    intro s
    simp only [evalStep, hty, parseNumber, if_neg hb, stoi_no_digit b token.value hb2 hb36 h,
      Option.map_none']
  refine ⟨hs st, ?_⟩
  simp only [calculatePrefix, evalLoop, hs, Option.none_bind]

/-- C8 (as the code behaves): at every base from 2 to 36 the iteration of the evaluator
on a `T_NUM` token fails exactly when the library call that reads its text throws,
`std::stod` at base 10 and `std::stoi` in the base otherwise; at a base other than
10 it does so whenever the text is empty or starts with a number character that is
not a digit of the base. -/
theorem number_token_fails {α : Type} (b : Nat) (verbose : Bool) (A : DoubleOps α)
    (st : EvalState α) (token : Token) (hb2 : 2 ≤ b) (hb36 : b ≤ 36)
    (hty : token.type = .T_NUM) :
    (evalStep ⟨(b : Int), verbose⟩ A st token = none ↔
        if b = 10 then A.stod token.value = none else stoi token.value (b : Int) = none) ∧
      (b ≠ 10 →
        (∀ d ∈ token.value.head?, isNumChar d = true ∧ isDigitOf b d = false) →
        evalStep ⟨(b : Int), verbose⟩ A st token = none) := by
  constructor
  · by_cases hb : b = 10
    · subst hb
      simp [evalStep, hty, parseNumber]
    · have hbi : ¬ ((b : Int) = 10) := by omega
      simp [evalStep, hty, parseNumber, hb, hbi]
  · intro hb10 h
    exact (evalStep_number_no_digit b verbose A st token hb2 hb36 hb10 hty h).1

/-- C8 at the token `g`, base 16: the iteration fails. -/
theorem number_token_fails_witness :
    isNumChar 'g' = true ∧ isDigitOf 16 'g' = false ∧
      evalStep ⟨16, false⟩ exactOps (EvalState.init (Option Int)) ⟨"g".toList, .T_NUM⟩ = none :=
  ⟨by decide, by decide,
    (number_token_fails 16 false exactOps (EvalState.init (Option Int))
      ⟨"g".toList, .T_NUM⟩ (by decide) (by decide) rfl).2 (by decide) (by decide)⟩

/-- C8 as stated fails: the text `1g` holds `g`, no digit of base 16 and none of base
10, and the iteration of the evaluator on the token pushes 1 at base 16
(`std::stoi` stops at `g`) and at base 10 (`std::stod` stops at `g`). -/
theorem number_token_counterexample :
    'g' ∈ "1g".toList ∧ isDigitOf 16 'g' = false ∧ isDigitOf 10 'g' = false ∧
      stoi "1g".toList 16 = some 1 ∧
      (evalStep ⟨16, false⟩ exactOps (EvalState.init (Option Int))
        ⟨"1g".toList, .T_NUM⟩).map (fun s => s.stack) = some [some 1] ∧
      (evalStep ⟨10, false⟩ exactOps (EvalState.init (Option Int))
        ⟨"1g".toList, .T_NUM⟩).map (fun s => s.stack) = some [some 1] := by
  decide

/-- C9 (what the code does): at a base from 2 to 36 other than 10, on a source that is
a non-empty run of digits of the base whose positional value fits a signed 32-bit
integer, `std::stoi` reads that value and the evaluator pushes it (converted to
`double`) as the only value of its stack; the final `return stack.pop()` is the
erase at `end()`, and `calculate` returns no number. -/
theorem digits_pushed {α : Type} (b : Nat) (verbose : Bool) (A : DoubleOps α)
    (text : List Char) (hb2 : 2 ≤ b) (hb36 : b ≤ 36) (hb10 : b ≠ 10) (hne : text ≠ [])
    (hall : ∀ c ∈ text, isDigitOf b c = true) (hfit : digitsValue b text ≤ 2147483647) :
    stoi text (b : Int) = some (digitsValue b text : Int) ∧
      toPrefix (tokenize text) = some [⟨text, .T_NUM⟩] ∧
      evalLoop ⟨(b : Int), verbose⟩ A [⟨text, .T_NUM⟩] (EvalState.init α) =
        some ⟨[A.ofInt (digitsValue b text : Int)], 1, []⟩ ∧
      Calculator.calculate ⟨(b : Int), verbose⟩ A text = none := by
  have hb : ¬ ((b : Int) = 10) := by omega
  have hlit : IsLit text := ⟨hne, fun c hc => isDigitOf_isNumChar (hall c hc)⟩
  have htext : numText text = text := by
    cases text with
    | nil => rfl
    | cons c r =>
      have := isDigitOf_ne_point (hall c (by simp))
      simp [numText, this]
  have hstoi := stoi_digits b text hb2 hb36 hne hall hfit
  refine ⟨hstoi, ?_, ?_, calculate_eq_none _ _ _⟩
  · rw [tokenize_lit_end text hlit, htext]
    rfl
  · simp only [evalLoop, evalStep, parseNumber, if_neg hb, hstoi, Option.map_some',
      Option.some_bind, EvalState.init, Stack.push]

/-- C9 at `ff`, base 16: `std::stoi` reads 255, the evaluator pushes it, and the call
returns no number. -/
theorem digits_pushed_witness :
    digitsValue 16 "ff".toList = 255 ∧
      evalLoop ⟨16, false⟩ exactOps (tokenize "ff".toList) (EvalState.init (Option Int)) =
        some ⟨[some 255], 1, []⟩ ∧
      Calculator.calculate ⟨16, false⟩ exactOps "ff".toList = none :=
  ⟨by decide,
    ((digits_pushed 16 false exactOps "ff".toList (by decide) (by decide) (by decide)
      (by decide) (by decide) (by decide)).2.2.1).trans (by rfl),
    (digits_pushed 16 false exactOps "ff".toList (by decide) (by decide) (by decide)
      (by decide) (by decide) (by decide)).2.2.2⟩

/-! ## Construction and the base -/

/-- C11 (what the code does): `setBase` stores any `int`; after the construction
`Calculator(10)` and the call `setBase(99)`, `getBase()` returns 99, outside
[2,36], and a later `calculate` does not change it. -/
theorem setBase_leaves_range :
    (Calculator.new 10 false).map (fun c => (c.setBase 99).getBase) = some 99 ∧
      (Calculator.new 10 false).map
        (fun c => (c.afterAll [.setBase 99, .calculate "2+3".toList]).getBase) = some 99 ∧
      ¬ ((2 : Int) ≤ 99 ∧ (99 : Int) ≤ 36) := by
  decide

/-- C12: the constructor fails exactly when the base is below 2 or above 36; when it
succeeds `getBase()` returns the base given. Bases 1 and 37 are rejected. -/
theorem new_validates_base (n : Int) (is_verbose : Bool) :
    (Calculator.new n is_verbose = none ↔ n < 2 ∨ 36 < n) ∧
      (∀ c, Calculator.new n is_verbose = some c → c.getBase = n) ∧
      Calculator.new 1 is_verbose = none ∧ Calculator.new 37 is_verbose = none := by
  refine ⟨?_, ?_, ?_, ?_⟩
  · unfold Calculator.new
    by_cases h : 1 < n ∧ n < 37
    · rw [if_pos h]
      constructor
      · intro h2; cases h2
      · intro h2; omega
    · rw [if_neg h]
      constructor
      · intro _; omega
      · intro _; rfl
  · intro c hc
    unfold Calculator.new at hc
    by_cases h : 1 < n ∧ n < 37
    · rw [if_pos h] at hc
      cases hc
      rfl
    · rw [if_neg h] at hc
      cases hc
  · rfl
  · rfl

/-! ## Tokenizer: number runs and separators -/

/-- C14: a non-empty source made of number characters only is one `T_NUM` token; its
text is the source, with `0` in front when the source starts with the point. -/
theorem tokenize_number_run (s : List Char) (hne : s ≠ [])
    (hall : ∀ c ∈ s, isNumChar c = true) :
    tokenize s = [⟨if s.head? = some '.' then '0' :: s else s, .T_NUM⟩] :=
  tokenize_lit_end s ⟨hne, hall⟩

/-- C14 at `.5` and `12ab`: the tokens are `0.5` and `12ab`. -/
theorem tokenize_number_run_witness :
    tokenize ".5".toList = [⟨"0.5".toList, .T_NUM⟩] ∧
      tokenize "12ab".toList = [⟨"12ab".toList, .T_NUM⟩] :=
  ⟨tokenize_number_run ".5".toList (by decide) (by decide),
    tokenize_number_run "12ab".toList (by decide) (by decide)⟩

theorem takeWhile_append_cons_stop {α : Type} (p : α → Bool) (r : List α) (c : α) (s2 : List α)
    (hc : p c = false) :
    (r ++ c :: s2).takeWhile p = r.takeWhile p ∧
      (r ++ c :: s2).dropWhile p = r.dropWhile p ++ c :: s2 := by
  induction r with
  | nil => simp [hc]
  | cons a r ih =>
    cases ha : p a with
    | true => simp [ha, ih.1, ih.2]
    | false => simp [ha]

/-- A character that is no number character ends the token before it. -/
theorem tokenize_append_cons (s1 : List Char) (c : Char) (s2 : List Char)
    (hc : isNumChar c = false) :
    tokenize (s1 ++ c :: s2) = tokenize s1 ++ tokenize (c :: s2) := by
  induction s1 using tokenize_induction with
  | hnil => rfl
  | hother d r hd ih =>
    rw [List.cons_append, tokenize_cons_other d _ hd, tokenize_cons_other d _ hd, ih,
      List.append_assoc]
  | hnum d r hd ih =>
    have h2 := takeWhile_append_cons_stop isNumChar r c s2 hc
    rw [List.cons_append, tokenize_cons_num d _ hd, tokenize_cons_num d _ hd, h2.1, h2.2, ih,
      List.cons_append]

/-- C15: a character `c` that is no number character splits the source:
the tokens of `s1 ++ c ++ s2` are the tokens of `s1`, the tokens of `c`, and the
tokens of `s2`; `c` gives no token when it is whitespace, one `T_OP` token when it
is an operator, one `T_LPAR` or `T_RPAR` token when it is a bracket, and one
`T_UNKNOWN` token otherwise. (`tokenize` is a total function: it cannot fail.) -/
theorem tokenize_split (s1 s2 : List Char) (c : Char) (hc : isNumChar c = false) :
    tokenize (s1 ++ c :: s2) = tokenize s1 ++ charToken c ++ tokenize s2 ∧
      ((c = ' ' ∨ c = '\t' ∨ c = '\n' ∨ c = '\r' ∨ c = '\x0c' ∨ c = '\x0b') →
        charToken c = []) ∧
      ((c = '+' ∨ c = '-' ∨ c = '*' ∨ c = '/' ∨ c = '^') → charToken c = [⟨[c], .T_OP⟩]) ∧
      ((c = '(' ∨ c = '[') → charToken c = [⟨[c], .T_LPAR⟩]) ∧
      ((c = ')' ∨ c = ']') → charToken c = [⟨[c], .T_RPAR⟩]) ∧
      (¬ (c = ' ' ∨ c = '\t' ∨ c = '\n' ∨ c = '\r' ∨ c = '\x0c' ∨ c = '\x0b') →
        ¬ (c = '+' ∨ c = '-' ∨ c = '*' ∨ c = '/' ∨ c = '^') →
        ¬ (c = '(' ∨ c = '[') → ¬ (c = ')' ∨ c = ']') →
        charToken c = [⟨[c], .T_UNKNOWN⟩]) := by
  refine ⟨?_, ?_, ?_, ?_, ?_, ?_⟩
  · rw [tokenize_append_cons s1 c s2 hc, tokenize_cons_other c s2 hc, List.append_assoc]
  · rintro (rfl | rfl | rfl | rfl | rfl | rfl) <;> decide
  · rintro (rfl | rfl | rfl | rfl | rfl) <;> decide
  · rintro (rfl | rfl) <;> decide
  · rintro (rfl | rfl) <;> decide
  · intro h1 h2 h3 h4
    have e1 : isBlank c = false := by
      simp only [isBlank, Bool.or_eq_false_iff, beq_eq_false_iff_ne]
      simp only [not_or] at h1
      tauto
    have e2 : isOpChar c = false := by
      simp only [isOpChar, Bool.or_eq_false_iff, beq_eq_false_iff_ne]
      simp only [not_or] at h2
      tauto
    have e3 : isLParChar c = false := by
      simp only [isLParChar, Bool.or_eq_false_iff, beq_eq_false_iff_ne]
      simp only [not_or] at h3
      tauto
    have e4 : isRParChar c = false := by
      simp only [isRParChar, Bool.or_eq_false_iff, beq_eq_false_iff_ne]
      simp only [not_or] at h4
      tauto
    simp [charToken, e1, e2, e3, e4]

/-- C15 at `12`, `+`, `ab`: the tokens are `12`, `+`, `ab`. -/
theorem tokenize_split_witness :
    isNumChar '+' = false ∧
      tokenize "12+ab".toList =
        [⟨"12".toList, .T_NUM⟩, ⟨"+".toList, .T_OP⟩, ⟨"ab".toList, .T_NUM⟩] :=
  ⟨by decide,
    ((tokenize_split "12".toList "ab".toList '+' (by decide)).1).trans (by decide)⟩

/-! ## Tokenizer: nothing but whitespace is dropped -/

theorem tokenText_append (l1 l2 : List Token) :
    tokenText (l1 ++ l2) = tokenText l1 ++ tokenText l2 := by
  induction l1 with
  | nil => rfl
  | cons t l1 ih => simp [tokenText, ih]

theorem tokenText_charToken (c : Char) :
    tokenText (charToken c) = if isBlank c = true then [] else [c] := by
  unfold charToken
  by_cases h1 : isBlank c = true
  · simp [h1, tokenText]
  · by_cases h2 : isOpChar c = true
    · simp [h1, h2, tokenText]
    · by_cases h3 : isLParChar c = true
      · simp [h1, h2, h3, tokenText]
      · by_cases h4 : isRParChar c = true
        · simp [h1, h2, h3, h4, tokenText]
        · simp [h1, h2, h3, h4, tokenText]

/-- C16: on a source without the point, the texts of the tokens, one after the
other, are the source without its whitespace characters (space, tab, line feed,
carriage return, form feed, vertical tab). -/
theorem tokenize_keeps_text (source : List Char) (h : '.' ∉ source) :
    tokenText (tokenize source) = source.filter (fun c => !isBlank c) ∧
      ∀ c, isBlank c = true ↔
        (c = ' ' ∨ c = '\t' ∨ c = '\n' ∨ c = '\r' ∨ c = '\x0c' ∨ c = '\x0b') := by
  constructor
  · induction source using tokenize_induction with
    | hnil => rfl
    | hother c rest hc ih =>
      have hr : '.' ∉ rest := fun hm => h (List.mem_cons_of_mem _ hm)
      rw [tokenize_cons_other c rest hc, tokenText_append, tokenText_charToken, ih hr]
      by_cases hb : isBlank c = true
      · simp [hb]
      · simp [hb]
    | hnum c rest hc ih =>
      have hcp : c ≠ '.' := fun e => h (by simp [e])
      have hsplit : rest = rest.takeWhile isNumChar ++ rest.dropWhile isNumChar :=
        (List.takeWhile_append_dropWhile isNumChar rest).symm
      have hd : '.' ∉ rest.dropWhile isNumChar := by
        intro hm
        have hmr : '.' ∈ rest := by
          rw [hsplit]
          exact List.mem_append_right _ hm
        exact h (List.mem_cons_of_mem _ hmr)
      have htw : (rest.takeWhile isNumChar).filter (fun c => !isBlank c) =
          rest.takeWhile isNumChar := by
        rw [List.filter_eq_self]
        intro a ha
        have := List.mem_takeWhile_imp ha
        simp [isNumChar_not_blank this]
      have hnum : numText (c :: rest.takeWhile isNumChar) = c :: rest.takeWhile isNumChar := by
        simp [numText, hcp]
      rw [tokenize_cons_num c rest hc, tokenText, hnum, ih hd]
      have hf : (c :: rest).filter (fun c => !isBlank c) =
          c :: (rest.takeWhile isNumChar ++ rest.dropWhile isNumChar).filter
            (fun c => !isBlank c) := by
        rw [← hsplit]
        simp [isNumChar_not_blank hc]
      rw [hf, List.filter_append, htw]
      rfl
  · intro c
    simp only [isBlank, Bool.or_eq_true, beq_iff_eq]
    tauto

/-- C16 at `1 + (2#3)`: the texts of the tokens give `1+(2#3)`. -/
theorem tokenize_keeps_text_witness :
    '.' ∉ "1 + (2#3)".toList ∧
      tokenText (tokenize "1 + (2#3)".toList) = "1+(2#3)".toList :=
  ⟨by decide, ((tokenize_keeps_text "1 + (2#3)".toList (by decide)).1).trans (by decide)⟩

/-! ## Pop rule of the converter -/

/-- C17: on `a o1 b o2 c`, with number tokens `a`, `b`, `c` and operators `o1`, `o2`
among the five of the table (`+` and `-` at 1, `*` and `/` at 2, `^` at 3), the
converter gives `a b o1 c o2` when the precedence of `o1` is above that of `o2`,
and `a b c o2 o1` otherwise, equal precedences included. -/
theorem toPrefix_two_operators (x y z : List Char) (o1 o2 : Char) (p1 p2 : Nat)
    (h1 : isOpChar o1 = true) (h2 : isOpChar o2 = true)
    (hp1 : PRECENDENCE [o1] = some p1) (hp2 : PRECENDENCE [o2] = some p2) :
    toPrefix [⟨x, .T_NUM⟩, ⟨[o1], .T_OP⟩, ⟨y, .T_NUM⟩, ⟨[o2], .T_OP⟩, ⟨z, .T_NUM⟩] =
        some (if p2 < p1 then
          [⟨x, .T_NUM⟩, ⟨y, .T_NUM⟩, ⟨[o1], .T_OP⟩, ⟨z, .T_NUM⟩, ⟨[o2], .T_OP⟩]
        else [⟨x, .T_NUM⟩, ⟨y, .T_NUM⟩, ⟨z, .T_NUM⟩, ⟨[o2], .T_OP⟩, ⟨[o1], .T_OP⟩]) ∧
      PRECENDENCE ['+'] = some 1 ∧ PRECENDENCE ['-'] = some 1 ∧ PRECENDENCE ['*'] = some 2 ∧
      PRECENDENCE ['/'] = some 2 ∧ PRECENDENCE ['^'] = some 3 := by
  refine ⟨?_, rfl, rfl, rfl, rfl, rfl⟩
  simp only [isOpChar, Bool.or_eq_true, beq_iff_eq] at h1 h2
  rcases h1 with (((rfl | rfl) | rfl) | rfl) | rfl <;>
    rcases h2 with (((rfl | rfl) | rfl) | rfl) | rfl <;>
    cases hp1 <;> cases hp2 <;> rfl

/-- C17 at `2*3+4` and `2+3+4`: the outputs are `2 3 * 4 +` and `2 3 4 + +`. -/
theorem toPrefix_two_operators_witness :
    toPrefix (tokenize "2*3+4".toList) = some (tokenize "2 3*4+".toList) ∧
      toPrefix (tokenize "2+3+4".toList) = some (tokenize "2 3 4++".toList) :=
  ⟨((toPrefix_two_operators "2".toList "3".toList "4".toList '*' '+' 2 1
      (by decide) (by decide) (by decide) (by decide)).1).trans (by decide),
    ((toPrefix_two_operators "2".toList "3".toList "4".toList '+' '+' 1 1
      (by decide) (by decide) (by decide) (by decide)).1).trans (by decide)⟩

/-! ## When the converter fails -/

/-- A `T_RPAR` token comes while no `T_LPAR` is open exactly when some initial segment
holds more `T_RPAR` tokens than `T_LPAR` tokens (counting `d` brackets open at the
start). -/
theorem closesUnopenedTok_iff : ∀ (tokens : List Token) (d : Nat),
    closesUnopenedTok d tokens = true ↔
      ∃ k, d + lparCount (tokens.take k) < rparCount (tokens.take k) := by
  intro tokens
  induction tokens with
  | nil =>
    intro d
    simp [closesUnopenedTok, lparCount, rparCount]
  | cons t rest ih =>
    intro d
    have hk : (∃ k, d + lparCount ((t :: rest).take k) < rparCount ((t :: rest).take k)) ↔
        ∃ k, d + lparCount (t :: rest.take k) < rparCount (t :: rest.take k) := by
      constructor
      · rintro ⟨k, hk⟩
        cases k with
        | zero => simp [lparCount, rparCount] at hk
        | succ k => exact ⟨k, by simpa using hk⟩
      · rintro ⟨k, hk⟩
        exact ⟨k + 1, by simpa using hk⟩
    rw [hk]
    by_cases hl : t.type = .T_LPAR
    · have hr : t.type ≠ .T_RPAR := by rw [hl]; simp
      have hL : ∀ l, lparCount (t :: l) = 1 + lparCount l := fun l => by simp [lparCount, hl]
      have hR : ∀ l, rparCount (t :: l) = rparCount l := fun l => by simp [rparCount, hr]
      have hC : closesUnopenedTok d (t :: rest) = closesUnopenedTok (d + 1) rest := by
        simp [closesUnopenedTok, hl]
      rw [hC, ih]
      simp only [hL, hR]
      constructor
      · rintro ⟨k, hk⟩; exact ⟨k, by omega⟩
      · rintro ⟨k, hk⟩; exact ⟨k, by omega⟩
    · have hL : ∀ l, lparCount (t :: l) = lparCount l := fun l => by simp [lparCount, hl]
      by_cases hr : t.type = .T_RPAR
      · have hR : ∀ l, rparCount (t :: l) = 1 + rparCount l := fun l => by simp [rparCount, hr]
        cases d with
        | zero =>
          have hC : closesUnopenedTok 0 (t :: rest) = true := by
            simp [closesUnopenedTok, hl, hr]
          rw [hC]
          simp only [hL, hR, true_iff]
          exact ⟨0, by simp [lparCount, rparCount]⟩
        | succ d =>
          have hC : closesUnopenedTok (d + 1) (t :: rest) = closesUnopenedTok d rest := by
            simp [closesUnopenedTok, hl, hr]
          rw [hC, ih]
          simp only [hL, hR]
          constructor
          · rintro ⟨k, hk⟩; exact ⟨k, by omega⟩
          · rintro ⟨k, hk⟩; exact ⟨k, by omega⟩
      · have hR : ∀ l, rparCount (t :: l) = rparCount l := fun l => by simp [rparCount, hr]
        have hC : closesUnopenedTok d (t :: rest) = closesUnopenedTok d rest := by
          simp [closesUnopenedTok, hl, hr]
        rw [hC, ih]
        simp only [hL, hR]

theorem charToken_op_known (c : Char) :
    ∀ t ∈ charToken c, t.type = .T_OP → (PRECENDENCE t.value).isSome = true := by
  intro t ht hty
  unfold charToken at ht
  split_ifs at ht with h1 h2 h3 h4
  · cases ht
  · rw [List.mem_singleton] at ht
    subst ht
    simp only [isOpChar, Bool.or_eq_true, beq_iff_eq] at h2
    rcases h2 with (((rfl | rfl) | rfl) | rfl) | rfl <;> rfl
  · rw [List.mem_singleton] at ht
    subst ht
    cases hty
  · rw [List.mem_singleton] at ht
    subst ht
    cases hty
  · rw [List.mem_singleton] at ht
    subst ht
    cases hty

/-- Every `T_OP` token of the tokenizer holds a key of the precedence table. -/
theorem tokenize_op_known (src : List Char) :
    ∀ t ∈ tokenize src, t.type = .T_OP → (PRECENDENCE t.value).isSome = true := by
  induction src using tokenize_induction with
  | hnil => intro t ht; simp [tokenize_nil] at ht
  | hother c rest hc ih =>
    intro t ht
    rw [tokenize_cons_other c rest hc, List.mem_append] at ht
    rcases ht with ht | ht
    · exact charToken_op_known c t ht
    · exact ih t ht
  | hnum c rest hc ih =>
    intro t ht
    rw [tokenize_cons_num c rest hc, List.mem_cons] at ht
    rcases ht with rfl | ht
    · intro hty; cases hty
    · exact ih t ht

theorem popHigher_some (token : Token) (hk : (PRECENDENCE token.value).isSome = true) :
    ∀ (stack out : List Token),
      (∀ t ∈ stack, t.type = .T_LPAR ∨ (PRECENDENCE t.value).isSome = true) →
      ∃ r, popHigher token stack out = some r ∧ ∀ t ∈ r.1, t ∈ stack := by
  intro stack
  induction stack with
  | nil => intro out _; exact ⟨([], out), rfl, fun t ht => ht⟩
  | cons top stack ih =>
    intro out hs
    unfold popHigher
    by_cases ht : top.type = .T_LPAR
    · exact ⟨(top :: stack, out), by simp [ht], fun t h => h⟩
    · have htop : (PRECENDENCE top.value).isSome = true := by
        rcases hs top (by simp) with h | h
        · exact absurd h ht
        · exact h
      obtain ⟨p, hp⟩ := Option.isSome_iff_exists.mp hk
      obtain ⟨q, hq⟩ := Option.isSome_iff_exists.mp htop
      simp only [ht, if_false, hp, hq]
      by_cases hlt : p < q
      · obtain ⟨r, hr, hmem⟩ := ih (out ++ [top]) (fun t h => hs t (List.mem_cons_of_mem _ h))
        exact ⟨r, by simp [hlt, hr], fun t h => List.mem_cons_of_mem _ (hmem t h)⟩
      · exact ⟨(top :: stack, out), by simp [hlt], fun t h => h⟩

theorem popToLPar_some : ∀ (stack out : List Token), 0 < lparCount stack →
    ∃ r, popToLPar stack out = some r ∧ ∀ t ∈ r.1, t ∈ stack := by
  intro stack
  induction stack with
  | nil => intro out h; simp [lparCount] at h
  | cons top stack ih =>
    intro out h
    unfold popToLPar
    by_cases ht : top.type = .T_LPAR
    · exact ⟨(stack, out), by simp [ht], fun t h => List.mem_cons_of_mem _ h⟩
    · obtain ⟨r, hr, hmem⟩ := ih (out ++ [top]) (by simpa [lparCount, ht] using h)
      exact ⟨r, by simp [ht, hr], fun t h => List.mem_cons_of_mem _ (hmem t h)⟩

/-- With operators of the table only, the loop of the converter goes through unless a
`T_RPAR` token comes while no `T_LPAR` is open. -/
theorem toPrefixLoop_some : ∀ (tokens : List Token) (st : Stack Token × List Token),
    (∀ t ∈ tokens, t.type = .T_OP → (PRECENDENCE t.value).isSome = true) →
    (∀ t ∈ st.1, t.type = .T_LPAR ∨ (PRECENDENCE t.value).isSome = true) →
    closesUnopenedTok (lparCount st.1) tokens = false →
    ∃ r, toPrefixLoop tokens st = some r := by
  intro tokens
  induction tokens with
  | nil => intro st _ _ _; exact ⟨st, rfl⟩
  | cons t rest ih =>
    intro st hk hs h
    have hk2 : ∀ u ∈ rest, u.type = .T_OP → (PRECENDENCE u.value).isSome = true :=
      fun u hu => hk u (List.mem_cons_of_mem _ hu)
    unfold toPrefixLoop toPrefixStep
    cases hty : t.type with
    | T_NUM =>
      simp only [closesUnopenedTok, hty] at h
      simp only [Option.some_bind]
      exact ih _ hk2 hs (by simpa using h)
    | T_OP =>
      simp only [closesUnopenedTok, hty] at h
      obtain ⟨r, hr, hmem⟩ := popHigher_some t (hk t (by simp) hty) st.1 st.2 hs
      have hc := popHigher_lparCount t _ _ r hr
      simp only [hr, Option.map_some', Option.some_bind]
      apply ih _ hk2
      · intro u hu
        simp only [Stack.push, List.mem_cons] at hu
        rcases hu with rfl | hu
        · exact Or.inr (hk _ (by simp) hty)
        · exact hs u (hmem u hu)
      · simpa [Stack.push, lparCount, hty, hc] using h
    | T_LPAR =>
      simp only [closesUnopenedTok, hty] at h
      simp only [Option.some_bind]
      apply ih _ hk2
      · intro u hu
        simp only [Stack.push, List.mem_cons] at hu
        rcases hu with rfl | hu
        · exact Or.inl hty
        · exact hs u hu
      · simpa [Stack.push, lparCount, hty, Nat.add_comm] using h
    | T_RPAR =>
      simp only [closesUnopenedTok, hty] at h
      cases hd : lparCount st.1 with
      | zero => simp [hd] at h
      | succ d =>
        rw [hd] at h
        obtain ⟨r, hr, hmem⟩ := popToLPar_some st.1 st.2 (by omega)
        have hc := popToLPar_lparCount _ _ r hr
        simp only [hr, Option.some_bind]
        apply ih _ hk2
        · intro u hu; exact hs u (hmem u hu)
        · have : lparCount r.1 = d := by omega
          rw [this]
          simpa using h
    | T_UNKNOWN =>
      simp only [closesUnopenedTok, hty] at h
      simp only [Option.some_bind]
      exact ih _ hk2 hs (by simpa using h)

/-- C18: on the tokens of any source the converter fails exactly when some initial
segment of the tokens holds more `T_RPAR` than `T_LPAR` tokens; otherwise every
table lookup, `pop` and `peek` goes through and the converter returns. -/
theorem toPrefix_fails_iff (source : List Char) :
    toPrefix (tokenize source) = none ↔
      ∃ k, lparCount ((tokenize source).take k) < rparCount ((tokenize source).take k) := by
  have hiff := closesUnopenedTok_iff (tokenize source) 0
  simp only [Nat.zero_add] at hiff
  rw [← hiff]
  constructor
  · intro h
    by_contra hc
    have hc2 : closesUnopenedTok 0 (tokenize source) = false := by simpa using hc
    obtain ⟨r, hr⟩ := toPrefixLoop_some (tokenize source) ([], []) (tokenize_op_known source)
      (by simp) (by simpa [lparCount] using hc2)
    simp [toPrefix, hr] at h
  · intro h
    unfold toPrefix
    rw [toPrefixLoop_closesUnopened (tokenize source) ([], []) (by simpa [lparCount] using h)]
    rfl

/-! ## Verbose trace -/

/-- The converter turns the parenthesized tokens of a tree, whatever follows them and
whatever the stack holds, into the traversal of the tree added to the output. -/
theorem toPrefixLoop_inorder : ∀ (t : Tree) (rest stack out : List Token),
    toPrefixLoop (t.inorder ++ rest) (stack, out) = toPrefixLoop rest (stack, out ++ t.postorder) := by
  intro t
  induction t with
  | leaf text =>
    intro rest stack out
    simp [Tree.inorder, Tree.postorder, toPrefixLoop, toPrefixStep]
  | node op l r ihl ihr =>
    intro rest stack out
    have e : (Tree.node op l r).inorder ++ rest =
        ⟨['('], .T_LPAR⟩ :: (l.inorder ++ ⟨[op.char], .T_OP⟩ ::
          (r.inorder ++ ⟨[')'], .T_RPAR⟩ :: rest)) := by
      simp [Tree.inorder, List.append_assoc]
    rw [e]
    simp only [toPrefixLoop, toPrefixStep, Option.some_bind, Stack.push]
    rw [ihl]
    simp only [toPrefixLoop, toPrefixStep, popHigher, if_true, Option.map_some',
      Option.some_bind, Stack.push]
    rw [ihr]
    simp [toPrefixLoop, toPrefixStep, popToLPar, Tree.postorder, List.append_assoc]

/-- C19 (what the code does): for every binary expression tree the converter on its
fully parenthesized token sequence returns its left-right-operator traversal; the
evaluator on that traversal pops its `Stack<double>`, the erase at `end()`, and
returns no value. -/
theorem tree_pipeline {α : Type} (self : Calculator) (A : DoubleOps α) (t : Tree) :
    toPrefix t.inorder = some t.postorder ∧
      calculatePrefix self A t.postorder = none := by
  refine ⟨?_, calculatePrefix_eq_none self A _⟩
  have := toPrefixLoop_inorder t [] [] []
  simp only [List.append_nil, List.nil_append] at this
  simp [toPrefix, this, toPrefixLoop]

/-! ## The converter only rearranges operators -/

theorem popHigher_split (token : Token) : ∀ (stack out : List Token)
    (r : Stack Token × List Token), popHigher token stack out = some r →
    ∃ moved, stack = moved ++ r.1 ∧ r.2 = out ++ moved ∧ ∀ t ∈ moved, t.type ≠ .T_LPAR := by
  intro stack
  induction stack with
  | nil =>
    intro out r h
    simp only [popHigher, Option.some.injEq] at h
    subst h
    exact ⟨[], by simp, by simp, by simp⟩
  | cons top stack ih =>
    intro out r h
    unfold popHigher at h
    by_cases ht : top.type = .T_LPAR
    · simp only [ht, if_true, Option.some.injEq] at h
      subst h
      exact ⟨[], by simp, by simp, by simp⟩
    · simp only [ht, if_false] at h
      cases hp : PRECENDENCE token.value with
      | none => simp [hp] at h
      | some p =>
        cases hq : PRECENDENCE top.value with
        | none => simp [hp, hq] at h
        | some q =>
          simp only [hp, hq] at h
          by_cases hlt : p < q
          · simp only [hlt, if_true] at h
            obtain ⟨moved, h1, h2, h3⟩ := ih _ _ h
            refine ⟨top :: moved, by simp [h1], by simp [h2], ?_⟩
            intro t hm
            rcases List.mem_cons.mp hm with rfl | hm
            · exact ht
            · exact h3 t hm
          · simp only [hlt, if_false, Option.some.injEq] at h
            subst h
            exact ⟨[], by simp, by simp, by simp⟩

theorem popToLPar_split : ∀ (stack out : List Token) (r : Stack Token × List Token),
    popToLPar stack out = some r →
    ∃ moved lp, stack = moved ++ lp :: r.1 ∧ lp.type = .T_LPAR ∧ r.2 = out ++ moved ∧
      ∀ t ∈ moved, t.type ≠ .T_LPAR := by
  intro stack
  induction stack with
  | nil => intro out r h; simp [popToLPar] at h
  | cons top stack ih =>
    intro out r h
    unfold popToLPar at h
    by_cases ht : top.type = .T_LPAR
    · simp only [ht, if_true, Option.some.injEq] at h
      subst h
      exact ⟨[], top, by simp, ht, by simp, by simp⟩
    · simp only [ht, if_false] at h
      obtain ⟨moved, lp, h1, h2, h3, h4⟩ := ih _ _ h
      refine ⟨top :: moved, lp, by simp [h1], h2, by simp [h3], ?_⟩
      intro t hm
      rcases List.mem_cons.mp hm with rfl | hm
      · exact ht
      · exact h4 t hm

theorem count_eq_zero_of_type {a t : Token} (h : t.type ≠ a.type) (l : List Token) :
    List.count a (t :: l) = List.count a l := by
  have : t ≠ a := fun e => h (by rw [e])
  simp [List.count_cons, this]

/-- What the loop of the converter keeps: the stack holds operators and opening
brackets only, the output numbers and operators only, the numbers reach the output
in their order, every operator is kept once, and the opening brackets left on the
stack are those no closing bracket has matched. -/
theorem toPrefixLoop_keeps : ∀ (tokens : List Token) (stack out : List Token)
    (r : Stack Token × List Token), toPrefixLoop tokens (stack, out) = some r →
    (∀ t ∈ stack, t.type = .T_OP ∨ t.type = .T_LPAR) →
    (∀ t ∈ out, t.type = .T_NUM ∨ t.type = .T_OP) →
    (∀ t ∈ r.1, t.type = .T_OP ∨ t.type = .T_LPAR) ∧
      (∀ t ∈ r.2, t.type = .T_NUM ∨ t.type = .T_OP) ∧
      r.2.filter (fun t => decide (t.type = .T_NUM)) =
        out.filter (fun t => decide (t.type = .T_NUM)) ++
          tokens.filter (fun t => decide (t.type = .T_NUM)) ∧
      (∀ a : Token, a.type = .T_OP →
        List.count a r.2 + List.count a r.1 =
          List.count a out + List.count a stack + List.count a tokens) ∧
      lparCount r.1 + rparCount tokens = lparCount stack + lparCount tokens := by
  intro tokens
  induction tokens with
  | nil =>
    intro stack out r h hs ho
    simp only [toPrefixLoop, Option.some.injEq] at h
    subst h
    exact ⟨hs, ho, by simp, by simp, by simp [lparCount, rparCount]⟩
  | cons t rest ih =>
    intro stack out r h hs ho
    simp only [toPrefixLoop, toPrefixStep] at h
    cases hty : t.type with
    | T_NUM =>
      simp only [hty, Option.some_bind] at h
      obtain ⟨g1, g2, g3, g4, g5⟩ := ih stack (out ++ [t]) r h hs (by
        intro u hu
        rcases List.mem_append.mp hu with hu | hu
        · exact ho u hu
        · rw [List.mem_singleton] at hu; subst hu; exact Or.inl hty)
      refine ⟨g1, g2, ?_, ?_, ?_⟩
      · rw [g3]; simp [List.filter_append, List.filter_cons, hty]
      · intro a ha
        have hc : List.count a (t :: rest) = List.count a rest :=
          count_eq_zero_of_type (by rw [hty, ha]; simp) rest
        have hc2 : List.count a [t] = 0 := by
          have := count_eq_zero_of_type (a := a) (t := t) (by rw [hty, ha]; simp) []
          simpa using this
        have := g4 a ha
        rw [List.count_append, hc2] at this
        rw [hc]; omega
      · simp only [lparCount, rparCount, hty] at g5 ⊢
        simpa using g5
    | T_OP =>
      simp only [hty] at h
      cases hp : popHigher t stack out with
      | none => simp [hp] at h
      | some r1 =>
        simp only [hp, Option.map_some', Option.some_bind, Stack.push] at h
        obtain ⟨moved, e1, e2, e3⟩ := popHigher_split t stack out r1 hp
        have hmoved : ∀ u ∈ moved, u.type = .T_OP := by
          intro u hu
          rcases hs u (by rw [e1]; exact List.mem_append_left _ hu) with h1 | h1
          · exact h1
          · exact absurd h1 (e3 u hu)
        obtain ⟨g1, g2, g3, g4, g5⟩ := ih (t :: r1.1) r1.2 r h (by
          intro u hu
          rcases List.mem_cons.mp hu with rfl | hu
          · exact Or.inl hty
          · exact hs u (by rw [e1]; exact List.mem_append_right _ hu)) (by
          intro u hu
          rw [e2] at hu
          rcases List.mem_append.mp hu with hu | hu
          · exact ho u hu
          · exact Or.inr (hmoved u hu))
        refine ⟨g1, g2, ?_, ?_, ?_⟩
        · rw [g3, e2]
          have hm : moved.filter (fun t => decide (t.type = .T_NUM)) = [] := by
            rw [List.filter_eq_nil_iff]
            intro u hu
            simp [hmoved u hu]
          simp [List.filter_append, List.filter_cons, hty, hm]
        · intro a ha
          have := g4 a ha
          rw [e2, List.count_append] at this
          rw [e1, List.count_append]
          simp only [List.count_cons] at this ⊢
          omega
        · have hc := popHigher_lparCount t stack out r1 hp
          simp only [lparCount, rparCount, hty] at g5 ⊢
          simp only [if_false, Nat.zero_add, reduceCtorEq] at g5 ⊢
          omega
    | T_LPAR =>
      simp only [hty, Option.some_bind, Stack.push] at h
      obtain ⟨g1, g2, g3, g4, g5⟩ := ih (t :: stack) out r h (by
        intro u hu
        rcases List.mem_cons.mp hu with rfl | hu
        · exact Or.inr hty
        · exact hs u hu) ho
      refine ⟨g1, g2, ?_, ?_, ?_⟩
      · rw [g3]; simp [List.filter_cons, hty]
      · intro a ha
        have hc : ∀ l, List.count a (t :: l) = List.count a l :=
          fun l => count_eq_zero_of_type (by rw [hty, ha]; simp) l
        have := g4 a ha
        rw [hc] at this
        rw [hc]; omega
      · simp only [lparCount, rparCount, hty] at g5 ⊢
        simp only [if_true, if_false, Nat.zero_add, reduceCtorEq] at g5 ⊢
        omega
    | T_RPAR =>
      simp only [hty] at h
      cases hp : popToLPar stack out with
      | none => simp [hp] at h
      | some r1 =>
        simp only [hp, Option.some_bind] at h
        obtain ⟨moved, lp, e1, e2, e3, e4⟩ := popToLPar_split stack out r1 hp
        have hmoved : ∀ u ∈ moved, u.type = .T_OP := by
          intro u hu
          rcases hs u (by rw [e1]; exact List.mem_append_left _ hu) with h1 | h1
          · exact h1
          · exact absurd h1 (e4 u hu)
        obtain ⟨g1, g2, g3, g4, g5⟩ := ih r1.1 r1.2 r h (by
          intro u hu
          exact hs u (by
            rw [e1]
            exact List.mem_append_right _ (List.mem_cons_of_mem _ hu))) (by
          intro u hu
          rw [e3] at hu
          rcases List.mem_append.mp hu with hu | hu
          · exact ho u hu
          · exact Or.inr (hmoved u hu))
        refine ⟨g1, g2, ?_, ?_, ?_⟩
        · rw [g3, e3]
          have hm : moved.filter (fun t => decide (t.type = .T_NUM)) = [] := by
            rw [List.filter_eq_nil_iff]
            intro u hu
            simp [hmoved u hu]
          simp [List.filter_append, List.filter_cons, hty, hm]
        · intro a ha
          have hc : ∀ l, List.count a (t :: l) = List.count a l :=
            fun l => count_eq_zero_of_type (by rw [hty, ha]; simp) l
          have hc2 : ∀ l, List.count a (lp :: l) = List.count a l :=
            fun l => count_eq_zero_of_type (by rw [e2, ha]; simp) l
          have := g4 a ha
          rw [e3, List.count_append] at this
          rw [e1, List.count_append, hc, hc2]
          omega
        · have hc := popToLPar_lparCount stack out r1 hp
          simp only [lparCount, rparCount, hty] at g5 ⊢
          simp only [if_true, if_false, Nat.zero_add, reduceCtorEq] at g5 ⊢
          omega
    | T_UNKNOWN =>
      simp only [hty, Option.some_bind] at h
      obtain ⟨g1, g2, g3, g4, g5⟩ := ih stack out r h hs ho
      refine ⟨g1, g2, ?_, ?_, ?_⟩
      · rw [g3]; simp [List.filter_cons, hty]
      · intro a ha
        have hc : ∀ l, List.count a (t :: l) = List.count a l :=
          fun l => count_eq_zero_of_type (by rw [hty, ha]; simp) l
        have := g4 a ha
        rw [hc]; omega
      · simp only [lparCount, rparCount, hty] at g5 ⊢
        simp only [if_false, Nat.zero_add, reduceCtorEq] at g5 ⊢
        omega

theorem lparCount_eq_zero : ∀ (l : List Token), lparCount l = 0 → ∀ t ∈ l, t.type ≠ .T_LPAR := by
  intro l
  induction l with
  | nil => intro _ t ht; cases ht
  | cons u l ih =>
    intro h t ht
    by_cases hu : u.type = .T_LPAR
    · simp [lparCount, hu] at h
    · have hl : lparCount l = 0 := by simpa [lparCount, hu] using h
      rcases List.mem_cons.mp ht with rfl | ht
      · exact hu
      · exact ih hl t ht

theorem length_num_op : ∀ (l : List Token), (∀ t ∈ l, t.type = .T_NUM ∨ t.type = .T_OP) →
    l.length = (l.filter (fun t => decide (t.type = .T_NUM))).length +
      (l.filter (fun t => decide (t.type = .T_OP))).length := by
  intro l
  induction l with
  | nil => intro _; rfl
  | cons u l ih =>
    intro h
    have := ih (fun t ht => h t (List.mem_cons_of_mem _ ht))
    rcases h u (by simp) with hu | hu
    · simp [List.filter_cons, hu, this]; omega
    · simp [List.filter_cons, hu, this]; omega

theorem count_filter_type (a : Token) (ty : TokenType) (l : List Token) :
    List.count a (l.filter (fun t => decide (t.type = ty))) =
      if a.type = ty then List.count a l else 0 := by
  by_cases h : a.type = ty
  · rw [if_pos h]
    exact List.count_filter (by simpa using h)
  · rw [if_neg h]
    apply List.count_eq_zero_of_not_mem
    intro hm
    have := (List.mem_filter.mp hm).2
    exact h (by simpa using this)

/-- C20: when the converter returns on a token sequence that holds as many `T_LPAR`
as `T_RPAR` tokens, its output holds no bracket and no `T_UNKNOWN` token, its
`T_NUM` tokens are those of the input in the same order, its `T_OP` tokens are those
of the input up to order, and its length is the number of `T_NUM` tokens plus the
number of `T_OP` tokens of the input. -/
theorem toPrefix_rearranges (tokens result : List Token) (h : toPrefix tokens = some result)
    (hbal : lparCount tokens = rparCount tokens) :
    (∀ t ∈ result, t.type ≠ .T_LPAR ∧ t.type ≠ .T_RPAR ∧ t.type ≠ .T_UNKNOWN) ∧
      result.filter (fun t => decide (t.type = .T_NUM)) =
        tokens.filter (fun t => decide (t.type = .T_NUM)) ∧
      (result.filter (fun t => decide (t.type = .T_OP))).Perm
        (tokens.filter (fun t => decide (t.type = .T_OP))) ∧
      result.length = (tokens.filter (fun t => decide (t.type = .T_NUM))).length +
        (tokens.filter (fun t => decide (t.type = .T_OP))).length := by
  unfold toPrefix at h
  cases hl : toPrefixLoop tokens ([], []) with
  | none => simp [hl] at h
  | some r =>
    simp only [hl, Option.map_some', Option.some.injEq] at h
    obtain ⟨g1, g2, g3, g4, g5⟩ := toPrefixLoop_keeps tokens [] [] r hl (by simp) (by simp)
    have hz : lparCount r.1 = 0 := by
      simp only [lparCount, Nat.zero_add] at g5
      omega
    have hstack : ∀ t ∈ r.1, t.type = .T_OP := by
      intro t ht
      rcases g1 t ht with h1 | h1
      · exact h1
      · exact absurd h1 (lparCount_eq_zero r.1 hz t ht)
    have hall : ∀ t ∈ result, t.type = .T_NUM ∨ t.type = .T_OP := by
      intro t ht
      rw [← h] at ht
      rcases List.mem_append.mp ht with ht | ht
      · exact g2 t ht
      · exact Or.inr (hstack t ht)
    have hnum : result.filter (fun t => decide (t.type = .T_NUM)) =
        tokens.filter (fun t => decide (t.type = .T_NUM)) := by
      have hs : r.1.filter (fun t => decide (t.type = .T_NUM)) = [] := by
        rw [List.filter_eq_nil_iff]
        intro u hu
        simp [hstack u hu]
      rw [← h, List.filter_append, g3, hs]
      simp
    have hperm : (result.filter (fun t => decide (t.type = .T_OP))).Perm
        (tokens.filter (fun t => decide (t.type = .T_OP))) := by
      rw [List.perm_iff_count]
      intro a
      rw [count_filter_type, count_filter_type]
      by_cases ha : a.type = .T_OP
      · rw [if_pos ha, if_pos ha, ← h, List.count_append]
        have := g4 a ha
        simpa using this
      · rw [if_neg ha, if_neg ha]
    refine ⟨?_, hnum, hperm, ?_⟩
    · intro t ht
      rcases hall t ht with h1 | h1 <;> simp [h1]
    · rw [length_num_op result hall, hnum, hperm.length_eq]

/-- C20 at the tokens of `(1+2)*3`: the output is `1 2 + 3 *`. -/
theorem toPrefix_rearranges_witness :
    lparCount (tokenize "(1+2)*3".toList) = rparCount (tokenize "(1+2)*3".toList) ∧
      toPrefix (tokenize "(1+2)*3".toList) = some (tokenize "1 2+3*".toList) ∧
      (tokenize "1 2+3*".toList).length = 5 :=
  ⟨by decide, by decide,
    ((toPrefix_rearranges (tokenize "(1+2)*3".toList) (tokenize "1 2+3*".toList)
      (by decide) (by decide)).2.2.2).trans (by decide)⟩

end CliCalc
